import Mathlib

/-!
# Word-search generator: `generateWordSearch` of `src/script.js`

A shallow embedding of the placement engine of `src/script.js` and the
properties of its result.

* A JavaScript string is the sequence of its UTF-16 code units; a word is a
  list of code units (`Nat`), `word.length` is the length of the list and
  `word[i]` its `i`-th element.
* A grid cell holds `''` (`Cell.empty`) or a one-code-unit string
  (`Cell.unit u`); reading an array past its end yields `undefined`
  (`Cell.undef`).
* `Math.random()` is a stream `rnd : Nat → ℚ` of the values of the doubles
  returned; the state carries the number of draws made so far.  The product
  `x * n` is the double nearest to the exact product (53 bits, ties to
  even), and `Math.floor` is taken of that double.
* A call that throws (a `TypeError` on a property read of `undefined`, a
  `RangeError` on an array length of `2^32` or more) is `none`.
* Memory is not limited: an array of fewer than `2^32` elements can always
  be allocated.
* Arrays are passed by value; the two places where the source copies an
  array (`[...words]` and the JSON round trip of the solution grid) are
  modelled a second time with the arrays in memory, and the two models are
  related in the theorems on the copies.
-/

namespace WordSearch

/-- One UTF-16 code unit. -/
abbrev CodeUnit := Nat

/-- A JavaScript string, as its code units. -/
abbrev Word := List CodeUnit

/-- What a grid cell can hold: `''`, a one-code-unit string, or `undefined`. -/
inductive Cell where
  | empty : Cell
  | unit (u : CodeUnit) : Cell
  | undef : Cell
deriving DecidableEq, Repr

/-- An array of rows, each an array of cells. -/
abbrev Grid := List (List Cell)

/-- The stream of values returned by successive calls of `Math.random()`. -/
abbrev Rand := Nat → ℚ

/-- The rational `x` is the value of a finite double: `m * 2^e` with a
significand of at most 53 bits and an exponent in the range of the format. -/
def IsDouble (x : ℚ) : Prop :=
  ∃ m e : Int, |m| < 2 ^ 53 ∧ -1074 ≤ e ∧ e ≤ 971 ∧ x = (m : ℚ) * (2 : ℚ) ^ e

/-- A double in `[0, 1)`, as `Math.random()` returns. -/
def UnitDouble (x : ℚ) : Prop := IsDouble x ∧ 0 ≤ x ∧ x < 1

/-- Every value of the random source is a double in `[0, 1)`. -/
def ValidRand (rnd : Rand) : Prop := ∀ k, UnitDouble (rnd k)

/-- The position of the leading bit of `n`, by halving at most `fuel` times
(`Nat.log2 n` when `n ≤ fuel`). -/
def log2Fuel : Nat → Nat → Nat
  | 0, _ => 0
  | fuel + 1, n => if n < 2 then 0 else log2Fuel fuel (n / 2) + 1

/-- The fraction `a / b * 2^s`, as numerator and denominator. -/
def scalePow2 (a b : Nat) (s : Int) : Nat × Nat :=
  if 0 ≤ s then (a * 2 ^ s.toNat, b) else (a, b * 2 ^ (-s).toNat)

/-- The exponent `e` with `2^e ≤ a / b < 2^(e+1)`, for positive `a` and `b`:
the difference of the leading bit positions, or one less. -/
def binadeOf (a b : Nat) : Int :=
  if (scalePow2 a b (-((log2Fuel a a : Int) - (log2Fuel b b : Int)))).2 ≤
      (scalePow2 a b (-((log2Fuel a a : Int) - (log2Fuel b b : Int)))).1 then
    (log2Fuel a a : Int) - (log2Fuel b b : Int)
  else (log2Fuel a a : Int) - (log2Fuel b b : Int) - 1

/-- The integer nearest to `A / B`, the even one of the two when `A / B` lies
half way. -/
def roundHalfEven (A B : Nat) : Nat :=
  if 2 * (A % B) < B then A / B
  else if B < 2 * (A % B) then A / B + 1
  else if (A / B) % 2 = 0 then A / B else A / B + 1

/-- The double nearest to `a / b` (round to nearest, ties to even), for
positive `a` and `b`, as a significand `r` and an exponent `t`: its value is
`r * 2^t`, with `2^52 ≤ r ≤ 2^53` (`nearestDouble_spec`).  The exponent is
not limited: the products of the doubles and integers met here neither
overflow nor lose bits to underflow. -/
def nearestDouble (a b : Nat) : Nat × Int :=
  (roundHalfEven (scalePow2 a b (-(binadeOf a b - 52))).1
      (scalePow2 a b (-(binadeOf a b - 52))).2,
    binadeOf a b - 52)

/-- `Math.floor` of the double `r * 2^t`. -/
def floorPow2 (r : Nat) (t : Int) : Nat :=
  if 0 ≤ t then r * 2 ^ t.toNat else r / 2 ^ (-t).toNat

/-- The least integer not below the double `r * 2^t`. -/
def ceilPow2 (r : Nat) (t : Int) : Nat :=
  if 0 ≤ t then r * 2 ^ t.toNat else (r + (2 ^ (-t).toNat - 1)) / 2 ^ (-t).toNat

/-- `Math.floor(x * n)`, for a double `x` and an integer `n`: the product is
the double nearest to the exact product `x.num * n / x.den`, and the floor is
taken of that double (for a negative product, minus the ceiling of the double
nearest to the absolute value). -/
def floorMul (x : ℚ) (n : Int) : Int :=
  if x.num * n = 0 then 0
  else if 0 < x.num * n then
    (floorPow2 (nearestDouble (x.num * n).natAbs x.den).1
      (nearestDouble (x.num * n).natAbs x.den).2 : Nat)
  else
    -((ceilPow2 (nearestDouble (x.num * n).natAbs x.den).1
      (nearestDouble (x.num * n).natAbs x.den).2 : Nat) : Int)

/-- `xs[i]` for an integer `i`: `none` stands for `undefined`. -/
def idx? {α : Type} (xs : List α) (i : Int) : Option α :=
  if 0 ≤ i then xs[i.toNat]? else none

/-- The values of `DIRECTIONS` in key order `E, W, S, N, SE, NW, SW, NE`. -/
def DIRECTIONS : List (Int × Int) :=
  [(0, 1), (0, -1), (1, 0), (-1, 0), (1, 1), (-1, -1), (1, -1), (-1, 1)]

/-- The string `"ABCDEFGHIJKLMNOPQRSTUVWXYZ"`, as code units. -/
def alphabet : List CodeUnit :=
  [65, 66, 67, 68, 69, 70, 71, 72, 73, 74, 75, 76, 77,
   78, 79, 80, 81, 82, 83, 84, 85, 86, 87, 88, 89, 90]

/-- The grid of `gridSize` rows of `gridSize` cells `''`; no row when
`gridSize` is not positive. -/
def emptyGrid (gridSize : Int) : Grid :=
  List.replicate gridSize.toNat (List.replicate gridSize.toNat Cell.empty)

/-- `Array.from({ length: gridSize }, () => Array(gridSize).fill(''))`: a
length that is not positive gives the empty array, a length of `2^32` or
more throws a `RangeError` (invalid array length), and any other length
gives the grid of empty cells. -/
def allocGrid (gridSize : Int) : Option Grid :=
  if 4294967296 ≤ gridSize then none else some (emptyGrid gridSize)

/-- `solutionGrid[r][c]`, read: `none` when `solutionGrid[r]` is `undefined`
(the read of `[c]` then throws), `Cell.undef` when the column is out of range. -/
def readCell (g : Grid) (r c : Int) : Option Cell :=
  match idx? g r with
  | none => none
  | some row => some ((idx? row c).getD Cell.undef)

/-- `solutionGrid[r][c] = v`: `none` when `solutionGrid[r]` is `undefined`.
A column out of range is `none` as well; the write loop never reaches that
case, since the check loop has read the same cells and found each of them
`''` or the word's character (see `writeFrom_spec`). -/
def writeCell (g : Grid) (r c : Int) (v : Cell) : Option Grid :=
  match idx? g r with
  | none => none
  | some row =>
    if 0 ≤ c ∧ c.toNat < row.length then
      some (g.set r.toNat (row.set c.toNat v))
    else none

/-- The check loop `for (let i = 0; i < word.length; i++)` from index `i`,
`rest` being the characters `word[i], word[i+1], ...`: the value of
`canPlace` when the loop ends or breaks, `none` when a read throws. -/
def canPlaceFrom (g : Grid) (startRow startCol : Int) (d : Int × Int) :
    Nat → List CodeUnit → Option Bool
  | _, [] => some true
  | i, ch :: rest =>
    match readCell g (startRow + (i : Int) * d.1) (startCol + (i : Int) * d.2) with
    | none => none
    | some cell =>
      if cell ≠ Cell.empty ∧ cell ≠ Cell.unit ch then some false
      else canPlaceFrom g startRow startCol d (i + 1) rest

/-- The write loop `solutionGrid[r][c] = word[i]` from index `i`. -/
def writeFrom (g : Grid) (startRow startCol : Int) (d : Int × Int) :
    Nat → List CodeUnit → Option Grid
  | _, [] => some g
  | i, ch :: rest =>
    match writeCell g (startRow + (i : Int) * d.1) (startCol + (i : Int) * d.2)
        (Cell.unit ch) with
    | none => none
    | some g' => writeFrom g' startRow startCol d (i + 1) rest

/-- The bounds check on the end cell: `true` when the trial goes on. -/
def endInBounds (gridSize endRow endCol : Int) : Bool :=
  !(decide (endRow < 0) || decide (endRow ≥ gridSize) ||
    decide (endCol < 0) || decide (endCol ≥ gridSize))

/-- One trial, made with the draws `k`, `k+1`, `k+2`: `none` when it throws,
`some none` when it is rejected, `some (some g')` when it commits. -/
def trial (rnd : Rand) (gridSize : Int) (g : Grid) (word : Word) (k : Nat) :
    Option (Option Grid) :=
  match idx? DIRECTIONS (floorMul (rnd k) 8) with
  | none => none
  | some direction =>
    let startRow := floorMul (rnd (k + 1)) gridSize
    let startCol := floorMul (rnd (k + 2)) gridSize
    let endRow := startRow + ((word.length : Int) - 1) * direction.1
    let endCol := startCol + ((word.length : Int) - 1) * direction.2
    if endInBounds gridSize endRow endCol then
      match canPlaceFrom g startRow startCol direction 0 word with
      | none => none
      | some false => some none
      | some true =>
        match writeFrom g startRow startCol direction 0 word with
        | none => none
        | some g' => some (some g')
    else some none

/-- The loop `for (attempts = 0; attempts < 150 && !placed; attempts++)`
with `n` attempts left: the grid, the flag `placed` and the number of draws
made when the loop ends. -/
def placeLoop (rnd : Rand) (gridSize : Int) (word : Word) (g : Grid) :
    Nat → Nat → Option (Grid × Bool × Nat)
  | 0, k => some (g, false, k)
  | n + 1, k =>
    match trial rnd gridSize g word k with
    | none => none
    | some none => placeLoop rnd gridSize word g n (k + 3)
    | some (some g') => some (g', true, k + 3)

/-- The state of the loop over the words. -/
structure PlaceState where
  grid : Grid
  placedWords : List Word
  draws : Nat
deriving DecidableEq, Repr

/-- The body of `for (const word of wordsToPlace)`. -/
def placeWord (rnd : Rand) (gridSize : Int) (s : PlaceState) (word : Word) :
    Option PlaceState :=
  match placeLoop rnd gridSize word s.grid 150 s.draws with
  | none => none
  | some (g, placed, k) =>
    some ⟨g, if placed then s.placedWords ++ [word] else s.placedWords, k⟩

/-- The loop `for (const word of wordsToPlace)`. -/
def placeAll (rnd : Rand) (gridSize : Int) : PlaceState → List Word → Option PlaceState
  | s, [] => some s
  | s, word :: rest =>
    match placeWord rnd gridSize s word with
    | none => none
    | some s' => placeAll rnd gridSize s' rest

/-- The comparator `(a, b) => b.length - a.length`, as "a may stand before b". -/
def lengthDesc (a b : Word) : Prop := b.length ≤ a.length

instance : DecidableRel lengthDesc := fun a b => inferInstanceAs (Decidable (b.length ≤ a.length))

/-- `[...words].sort((a, b) => b.length - a.length)`: `Array.prototype.sort`
is stable, and the output of a stable sort is fixed by the comparator. -/
def wordsToPlace (words : List Word) : List Word :=
  List.insertionSort lengthDesc words

/-- `a < b` on strings: the order of the code units at the first difference,
a proper prefix being smaller. -/
def strLt : Word → Word → Bool
  | [], [] => false
  | [], _ :: _ => true
  | _ :: _, [] => false
  | a :: as, b :: bs => if a < b then true else if b < a then false else strLt as bs

/-- The default comparator of `sort()`, as "a may stand before b". -/
def strLe (a b : Word) : Prop := strLt b a = false

instance : DecidableRel strLe := fun a b => inferInstanceAs (Decidable (strLt b a = false))

/-- `placedWords.sort()`. -/
def sortWords (ws : List Word) : List Word := List.insertionSort strLe ws

/-- `alphabet[Math.floor(Math.random() * alphabet.length)]`. -/
def fillerCell (rnd : Rand) (k : Nat) : Cell :=
  match idx? alphabet (floorMul (rnd k) 26) with
  | none => Cell.undef
  | some u => Cell.unit u

/-- The body of the fill loops at `(r, c)`, on the grid and the number of
draws made: `none` when `puzzleGrid[r]` is `undefined` (the read of `[c]`
throws); a cell that is not `''` (or is `undefined`) is left alone. -/
def fillAt (rnd : Rand) (s : Grid × Nat) (rc : Nat × Nat) : Option (Grid × Nat) :=
  match s.1[rc.1]? with
  | none => none
  | some row =>
    if row[rc.2]? = some Cell.empty then
      some (s.1.set rc.1 (row.set rc.2 (fillerCell rnd s.2)), s.2 + 1)
    else some s

/-- The cells `(r, c)` in the order of the loops
`for (r = 0; r < gridSize; r++) for (c = 0; c < gridSize; c++)`. -/
def cellOrder (gridSize : Int) : List (Nat × Nat) :=
  (List.range gridSize.toNat).flatMap fun r => (List.range gridSize.toNat).map fun c => (r, c)

/-- The fill loops along a list of cells. -/
def fillLoop (rnd : Rand) : List (Nat × Nat) → Grid × Nat → Option (Grid × Nat)
  | [], s => some s
  | rc :: rest, s =>
    match fillAt rnd s rc with
    | none => none
    | some s' => fillLoop rnd rest s'

/-- The fill loops over `puzzleGrid`, the deep copy
`JSON.parse(JSON.stringify(solutionGrid))` of the solution grid: the copy
shares no array with the solution grid, so it is passed by value. -/
def fillGrid (rnd : Rand) (gridSize : Int) (g : Grid) (k : Nat) : Option (Grid × Nat) :=
  fillLoop rnd (cellOrder gridSize) (g, k)

/-- The returned object. -/
structure PuzzleResult where
  placedWords : List Word
  puzzleGrid : Grid
  solutionGrid : Grid
deriving DecidableEq, Repr

/-- The function `generateWordSearch(words, gridSize)`. -/
def generateWordSearch (rnd : Rand) (words : List Word) (gridSize : Int) :
    Option PuzzleResult :=
  match allocGrid gridSize with
  | none => none
  | some solutionGrid =>
    match placeAll rnd gridSize ⟨solutionGrid, [], 0⟩ (wordsToPlace words) with
    | none => none
    | some s =>
      match fillGrid rnd gridSize s.grid s.draws with
      | none => none
      | some (puzzleGrid, _) => some ⟨sortWords s.placedWords, puzzleGrid, s.grid⟩

/-! ### The two copies, with the arrays in memory

The functions above pass the copies `[...words]` and
`JSON.parse(JSON.stringify(solutionGrid))` by value.  The definitions below
follow the same lines of the source with the arrays held in memory and
addressed by reference, so that a write through one reference is seen through
every other reference to the same array. -/

/-- Arrays in memory, addressed by position: a reference is an index. -/
abbrev Store (α : Type) := List (List α)

/-- The array a reference denotes (`[]` for a reference to nothing). -/
def deref {α : Type} (σ : Store α) (ref : Nat) : List α := (σ[ref]?).getD []

/-- `[...words]`: a new array with the elements of the array `ref`; the
memory afterwards and the reference of the new array. -/
def spreadCopy {α : Type} (σ : Store α) (ref : Nat) : Store α × Nat :=
  (σ ++ [deref σ ref], σ.length)

/-- `arr.sort((a, b) => b.length - a.length)`: sorts the array `ref` in place. -/
def sortInPlace (σ : Store Word) (ref : Nat) : Store Word :=
  σ.set ref (List.insertionSort lengthDesc (deref σ ref))

/-- `const wordsToPlace = [...words].sort((a, b) => b.length - a.length)`: the
memory afterwards and the reference held by `wordsToPlace`. -/
def sortedCopy (σ : Store Word) (words : Nat) : Store Word × Nat :=
  let copy := spreadCopy σ words
  (sortInPlace copy.1 copy.2, copy.2)

/-- The grid whose rows are the arrays `refs`. -/
def derefGrid (σ : Store Cell) (refs : List Nat) : Grid := refs.map (deref σ)

/-- `JSON.parse(JSON.stringify(grid))` for a grid of strings: new row arrays
holding the same cells; the memory afterwards and the references of the new
rows. -/
def deepCopy (σ : Store Cell) (refs : List Nat) : Store Cell × List Nat :=
  (σ ++ derefGrid σ refs, (List.range refs.length).map fun i => σ.length + i)

/-- The body of the fill loops at `(r, c)`, on the memory and the number of
draws made, `puzzleGrid` being the references of the rows of the display grid. -/
def fillAtMem (rnd : Rand) (puzzleGrid : List Nat) (s : Store Cell × Nat) (rc : Nat × Nat) :
    Option (Store Cell × Nat) :=
  match puzzleGrid[rc.1]? with
  | none => none
  | some ref =>
    match s.1[ref]? with
    | none => none
    | some row =>
      if row[rc.2]? = some Cell.empty then
        some (s.1.set ref (row.set rc.2 (fillerCell rnd s.2)), s.2 + 1)
      else some s

/-- The fill loops along a list of cells, on the memory. -/
def fillLoopMem (rnd : Rand) (puzzleGrid : List Nat) :
    List (Nat × Nat) → Store Cell × Nat → Option (Store Cell × Nat)
  | [], s => some s
  | rc :: rest, s =>
    match fillAtMem rnd puzzleGrid s rc with
    | none => none
    | some s' => fillLoopMem rnd puzzleGrid rest s'

/-- The deep copy and the fill loops, on the memory: the memory afterwards, the
references of the rows of `puzzleGrid` and the number of draws made. -/
def copyAndFill (rnd : Rand) (gridSize : Int) (σ : Store Cell) (solutionGrid : List Nat)
    (k : Nat) : Option (Store Cell × List Nat × Nat) :=
  let copy := deepCopy σ solutionGrid
  match fillLoopMem rnd copy.2 (cellOrder gridSize) (copy.1, k) with
  | none => none
  | some s => some (s.1, copy.2, s.2)

/-- The word `"CAT"`. -/
def CAT : Word := [67, 65, 84]

/-- The word `"DOG"`. -/
def DOG : Word := [68, 79, 71]

/-- The word `"SUPERCALIFRAGILISTIC"`. -/
def SUPERCALIFRAGILISTIC : Word :=
  [83, 85, 80, 69, 82, 67, 65, 76, 73, 70, 82, 65, 71, 73, 76, 73, 83, 84, 73, 67]

/-! ## Predicates used in the statements -/

/-- The cell `(r, c)` lies inside a grid of size `N`. -/
def InGrid (N r c : Int) : Prop := 0 ≤ r ∧ r < N ∧ 0 ≤ c ∧ c < N

instance (N r c : Int) : Decidable (InGrid N r c) := by unfold InGrid; infer_instance

/-- The grid has `N` rows of `N` cells (none when `N ≤ 0`). -/
def Square (N : Int) (g : Grid) : Prop :=
  g.length = N.toNat ∧ ∀ row ∈ g, row.length = N.toNat

/-- Every cell of the walk of `rest` from index `i` is `''` or already holds
the character the word needs there. -/
def CellsFreeFrom (g : Grid) (r0 c0 : Int) (d : Int × Int) (i : Nat) (rest : List CodeUnit) :
    Prop :=
  ∀ j (h : j < rest.length),
    readCell g (r0 + ((i + j : Nat) : Int) * d.1) (c0 + ((i + j : Nat) : Int) * d.2)
        = some Cell.empty ∨
    readCell g (r0 + ((i + j : Nat) : Int) * d.1) (c0 + ((i + j : Nat) : Int) * d.2)
        = some (Cell.unit (rest.get ⟨j, h⟩))

/-- Walking `w` from `(r0, c0)` in direction `d` stays inside the grid and
reads the characters of `w` in `g`. -/
def ReadsAt (N : Int) (g : Grid) (w : Word) (r0 c0 : Int) (d : Int × Int) : Prop :=
  ∀ i (h : i < w.length),
    InGrid N (r0 + (i : Int) * d.1) (c0 + (i : Int) * d.2) ∧
    readCell g (r0 + (i : Int) * d.1) (c0 + (i : Int) * d.2) = some (Cell.unit (w.get ⟨i, h⟩))

/-- The word can be read off the grid: from some start cell inside the grid,
in one of the eight directions. -/
def Readable (N : Int) (g : Grid) (w : Word) : Prop :=
  ∃ r0 c0 d, InGrid N r0 c0 ∧ d ∈ DIRECTIONS ∧ ReadsAt N g w r0 c0 d

/-- The cell `(r, c)` is `''` or a letter of one of the words `placed`, on a
walk of that word that can be read in `g`. -/
def CoveredCell (N : Int) (g : Grid) (placed : List Word) (r c : Int) : Prop :=
  readCell g r c = some Cell.empty ∨
  ∃ w ∈ placed, ∃ r0 c0 d, InGrid N r0 c0 ∧ d ∈ DIRECTIONS ∧ ReadsAt N g w r0 c0 d ∧
    ∃ i, ∃ h : i < w.length, r = r0 + (i : Int) * d.1 ∧ c = c0 + (i : Int) * d.2 ∧
      readCell g r c = some (Cell.unit (w.get ⟨i, h⟩))

/-- The invariant of the loop over the words. -/
def PlaceInv (N : Int) (s : PlaceState) : Prop :=
  Square N s.grid ∧ (∀ w ∈ s.placedWords, Readable N s.grid w) ∧
    ∀ r c, InGrid N r c → CoveredCell N s.grid s.placedWords r c

/-- The conditions under which a trial commits: its end cell is in bounds and
each of its cells is `''` or already holds the needed character. -/
def LegalTrial (rnd : Rand) (N : Int) (g : Grid) (word : Word) (k : Nat) : Prop :=
  ∃ d, idx? DIRECTIONS (floorMul (rnd k) 8) = some d ∧
    endInBounds N (floorMul (rnd (k + 1)) N + ((word.length : Int) - 1) * d.1)
      (floorMul (rnd (k + 2)) N + ((word.length : Int) - 1) * d.2) = true ∧
    CellsFreeFrom g (floorMul (rnd (k + 1)) N) (floorMul (rnd (k + 2)) N) d 0 word

/-- The cell at row `r`, column `c`, when the grid has one. -/
def cellAt (g : Grid) (r c : Nat) : Option Cell := (g[r]?).bind fun row => row[c]?

/-- The random source of the example: the fifth draw is `1/4`, every other
draw is `0`. -/
def catDogRand : Rand := fun k => if k = 4 then mkRat 1 4 else 0

/-! ## Arithmetic of the draws -/

theorem log2Fuel_eq (fuel n : Nat) (h : n ≤ fuel) : log2Fuel fuel n = Nat.log2 n := by
  induction fuel generalizing n with
  | zero =>
    have : n = 0 := by omega
    subst this
    rw [Nat.log2_zero]
    rfl
  | succ fuel ih =>
    rw [log2Fuel, Nat.log2]
    by_cases h2 : n < 2
    · rw [if_pos h2, if_neg (by omega)]
    · rw [if_neg h2, if_pos (by omega), ih (n / 2) (by omega)]

theorem two_zpow_toNat {s : Int} (h : 0 ≤ s) : ((2 : ℚ) ^ s.toNat) = (2 : ℚ) ^ s := by
  rw [← zpow_natCast, Int.toNat_of_nonneg h]

theorem two_zpow_neg_toNat {s : Int} (h : ¬ 0 ≤ s) : ((2 : ℚ) ^ (-s).toNat) = ((2 : ℚ) ^ s)⁻¹ := by
  rw [← zpow_natCast, Int.toNat_of_nonneg (by omega), zpow_neg]

theorem scalePow2_den_pos (a : Nat) {b : Nat} (hb : 0 < b) (s : Int) : 0 < (scalePow2 a b s).2 := by
  unfold scalePow2
  split
  · exact hb
  · exact Nat.mul_pos hb (pow_pos (by norm_num) _)

theorem scalePow2_val (a b : Nat) (s : Int) :
    ((scalePow2 a b s).1 : ℚ) / ((scalePow2 a b s).2 : ℚ) = (a : ℚ) / (b : ℚ) * (2 : ℚ) ^ s := by
  unfold scalePow2
  split
  · rename_i h
    push_cast
    rw [two_zpow_toNat h]
    ring
  · rename_i h
    push_cast
    rw [two_zpow_neg_toNat h]
    have : (2 : ℚ) ^ s ≠ 0 := zpow_ne_zero _ (by norm_num)
    field_simp

theorem binadeOf_spec {a b : Nat} (ha : 0 < a) (hb : 0 < b) :
    (2 : ℚ) ^ binadeOf a b ≤ (a : ℚ) / b ∧ (a : ℚ) / b < (2 : ℚ) ^ (binadeOf a b + 1) := by
  have hbq : (0 : ℚ) < b := by exact_mod_cast hb
  have h2 : (0 : ℚ) < 2 := by norm_num
  have la1 : ((2 : ℚ) ^ (Nat.log2 a : Int)) ≤ a := by
    rw [zpow_natCast]; exact_mod_cast Nat.log2_self_le (by omega)
  have la2 : (a : ℚ) < (2 : ℚ) ^ ((Nat.log2 a : Int) + 1) := by
    rw [show ((Nat.log2 a : Int) + 1) = ((Nat.log2 a + 1 : Nat) : Int) by push_cast; ring,
      zpow_natCast]
    exact_mod_cast Nat.lt_log2_self
  have lb1 : ((2 : ℚ) ^ (Nat.log2 b : Int)) ≤ b := by
    rw [zpow_natCast]; exact_mod_cast Nat.log2_self_le (by omega)
  have lb2 : (b : ℚ) < (2 : ℚ) ^ ((Nat.log2 b : Int) + 1) := by
    rw [show ((Nat.log2 b : Int) + 1) = ((Nat.log2 b + 1 : Nat) : Int) by push_cast; ring,
      zpow_natCast]
    exact_mod_cast Nat.lt_log2_self
  have hpa : (0 : ℚ) < (2 : ℚ) ^ (Nat.log2 a : Int) := zpow_pos h2 _
  have hpb : (0 : ℚ) < (2 : ℚ) ^ (Nat.log2 b : Int) := zpow_pos h2 _
  unfold binadeOf
  rw [log2Fuel_eq a a (le_refl _), log2Fuel_eq b b (le_refl _)]
  have hden := scalePow2_den_pos a hb (-((Nat.log2 a : Int) - (Nat.log2 b : Int)))
  have hval := scalePow2_val a b (-((Nat.log2 a : Int) - (Nat.log2 b : Int)))
  have hdq : (0 : ℚ) < ((scalePow2 a b (-((Nat.log2 a : Int) - (Nat.log2 b : Int)))).2 : ℚ) := by
    exact_mod_cast hden
  have he0 : (2 : ℚ) ^ ((Nat.log2 a : Int) - (Nat.log2 b : Int)) =
      (2 : ℚ) ^ (Nat.log2 a : Int) / (2 : ℚ) ^ (Nat.log2 b : Int) := zpow_sub₀ (by norm_num) _ _
  have hp0 : (0 : ℚ) < (2 : ℚ) ^ ((Nat.log2 a : Int) - (Nat.log2 b : Int)) := zpow_pos h2 _
  split
  · rename_i htest
    have h1 : (1 : ℚ) ≤ (a : ℚ) / b * (2 : ℚ) ^ (-((Nat.log2 a : Int) - (Nat.log2 b : Int))) := by
      rw [← hval, le_div_iff₀ hdq, one_mul]
      exact_mod_cast htest
    rw [zpow_neg] at h1
    constructor
    · calc (2 : ℚ) ^ ((Nat.log2 a : Int) - (Nat.log2 b : Int))
          = 1 * (2 : ℚ) ^ ((Nat.log2 a : Int) - (Nat.log2 b : Int)) := (one_mul _).symm
        _ ≤ (a : ℚ) / b * ((2 : ℚ) ^ ((Nat.log2 a : Int) - (Nat.log2 b : Int)))⁻¹ *
              (2 : ℚ) ^ ((Nat.log2 a : Int) - (Nat.log2 b : Int)) :=
            mul_le_mul_of_nonneg_right h1 hp0.le
        _ = (a : ℚ) / b := by field_simp; ring
    · rw [show (Nat.log2 a : Int) - (Nat.log2 b : Int) + 1 =
          ((Nat.log2 a : Int) + 1) - (Nat.log2 b : Int) by ring, zpow_sub₀ (by norm_num)]
      rw [div_lt_div_iff₀ hbq hpb]
      calc (a : ℚ) * (2 : ℚ) ^ (Nat.log2 b : Int) ≤ a * b := by
            apply mul_le_mul_of_nonneg_left lb1; positivity
        _ < (2 : ℚ) ^ ((Nat.log2 a : Int) + 1) * b := by
            apply mul_lt_mul_of_pos_right la2 hbq
  · rename_i htest
    have h1 : (a : ℚ) / b * (2 : ℚ) ^ (-((Nat.log2 a : Int) - (Nat.log2 b : Int))) < 1 := by
      rw [← hval, div_lt_iff₀ hdq, one_mul]
      exact_mod_cast Nat.lt_of_not_le htest
    rw [zpow_neg] at h1
    constructor
    · rw [show (Nat.log2 a : Int) - (Nat.log2 b : Int) - 1 =
          (Nat.log2 a : Int) - ((Nat.log2 b : Int) + 1) by ring, zpow_sub₀ (by norm_num)]
      have hpb1 : (0 : ℚ) < (2 : ℚ) ^ ((Nat.log2 b : Int) + 1) := zpow_pos h2 _
      rw [div_le_div_iff₀ hpb1 hbq]
      calc (2 : ℚ) ^ (Nat.log2 a : Int) * b ≤ a * b := by
            apply mul_le_mul_of_nonneg_right la1 hbq.le
        _ ≤ a * (2 : ℚ) ^ ((Nat.log2 b : Int) + 1) := by
            apply mul_le_mul_of_nonneg_left lb2.le; positivity
    · rw [show (Nat.log2 a : Int) - (Nat.log2 b : Int) - 1 + 1 =
          (Nat.log2 a : Int) - (Nat.log2 b : Int) by ring]
      calc (a : ℚ) / b = (a : ℚ) / b * ((2 : ℚ) ^ ((Nat.log2 a : Int) - (Nat.log2 b : Int)))⁻¹ *
              (2 : ℚ) ^ ((Nat.log2 a : Int) - (Nat.log2 b : Int)) := by field_simp; ring
        _ < 1 * (2 : ℚ) ^ ((Nat.log2 a : Int) - (Nat.log2 b : Int)) :=
            mul_lt_mul_of_pos_right h1 hp0
        _ = _ := one_mul _

theorem roundHalfEven_spec (A : Nat) {B : Nat} (hB : 0 < B) :
    2 * (roundHalfEven A B * B) ≤ 2 * A + B ∧ 2 * A ≤ 2 * (roundHalfEven A B * B) + B := by
  have hA : B * (A / B) + A % B = A := Nat.div_add_mod A B
  have hm : A % B < B := Nat.mod_lt _ hB
  have e1 : (A / B + 1) * B = B * (A / B) + B := by ring
  have e0 : A / B * B = B * (A / B) := by ring
  unfold roundHalfEven
  split
  · rw [e0]; omega
  · split
    · rw [e1]; omega
    · split
      · rw [e0]; omega
      · rw [e1]; omega

theorem floorPow2_le (r : Nat) (t : Int) : ((floorPow2 r t : Nat) : ℚ) ≤ (r : ℚ) * (2 : ℚ) ^ t := by
  unfold floorPow2
  split
  · rename_i h
    push_cast
    rw [two_zpow_toNat h]
  · rename_i h
    calc ((r / 2 ^ (-t).toNat : Nat) : ℚ) ≤ (r : ℚ) / ((2 ^ (-t).toNat : Nat) : ℚ) := Nat.cast_div_le
      _ = (r : ℚ) * (2 : ℚ) ^ t := by
        push_cast
        rw [two_zpow_neg_toNat h, div_eq_mul_inv, inv_inv]

/-- The double nearest to `a / b`: significand of 53 bits, at most half a unit
in the last place away. -/
theorem nearestDouble_spec {a b : Nat} (ha : 0 < a) (hb : 0 < b) :
    2 ^ 52 ≤ (nearestDouble a b).1 ∧ (nearestDouble a b).1 ≤ 2 ^ 53 ∧
    |((nearestDouble a b).1 : ℚ) * (2 : ℚ) ^ (nearestDouble a b).2 - (a : ℚ) / b| ≤
      (2 : ℚ) ^ (nearestDouble a b).2 / 2 ∧
    (2 : ℚ) ^ ((nearestDouble a b).2 + 52) ≤ (a : ℚ) / b := by
  obtain ⟨hlo, hhi⟩ := binadeOf_spec ha hb
  have hden := scalePow2_den_pos a hb (-(binadeOf a b - 52))
  have hval := scalePow2_val a b (-(binadeOf a b - 52))
  obtain ⟨hr1, hr2⟩ := roundHalfEven_spec (scalePow2 a b (-(binadeOf a b - 52))).1 hden
  show 2 ^ 52 ≤ roundHalfEven _ _ ∧ roundHalfEven _ _ ≤ 2 ^ 53 ∧
    |((roundHalfEven _ _ : Nat) : ℚ) * (2 : ℚ) ^ (binadeOf a b - 52) - (a : ℚ) / b| ≤
      (2 : ℚ) ^ (binadeOf a b - 52) / 2 ∧
    (2 : ℚ) ^ (binadeOf a b - 52 + 52) ≤ (a : ℚ) / b
  generalize roundHalfEven (scalePow2 a b (-(binadeOf a b - 52))).1
    (scalePow2 a b (-(binadeOf a b - 52))).2 = r at hr1 hr2 ⊢
  generalize (scalePow2 a b (-(binadeOf a b - 52))).1 = A at hr1 hr2 hval ⊢
  generalize (scalePow2 a b (-(binadeOf a b - 52))).2 = B at hr1 hr2 hval hden ⊢
  have hBq : (0 : ℚ) < B := by exact_mod_cast hden
  have hu : (0 : ℚ) < (2 : ℚ) ^ (binadeOf a b - 52) := zpow_pos (by norm_num) _
  have hq : (A : ℚ) / B = (a : ℚ) / b * ((2 : ℚ) ^ (binadeOf a b - 52))⁻¹ := by
    rw [hval, zpow_neg]
  -- the scaled quotient lies in [2^52, 2^53)
  have hsplit : (2 : ℚ) ^ binadeOf a b = (2 : ℚ) ^ (binadeOf a b - 52) * 2 ^ 52 := by
    rw [show binadeOf a b = (binadeOf a b - 52) + 52 by ring, zpow_add₀ (by norm_num)]
    norm_num
  have hsplit1 : (2 : ℚ) ^ (binadeOf a b + 1) = (2 : ℚ) ^ (binadeOf a b - 52) * 2 ^ 53 := by
    rw [show binadeOf a b + 1 = (binadeOf a b - 52) + 53 by ring, zpow_add₀ (by norm_num)]
    norm_num
  have hqlo : (2 : ℚ) ^ 52 ≤ (A : ℚ) / B := by
    rw [hq, ← div_eq_mul_inv, le_div_iff₀ hu]
    rw [hsplit] at hlo
    linarith
  have hqhi : (A : ℚ) / B < (2 : ℚ) ^ 53 := by
    rw [hq, ← div_eq_mul_inv, div_lt_iff₀ hu]
    rw [hsplit1] at hhi
    linarith
  have hAlo : 2 ^ 52 * B ≤ A := by
    rw [le_div_iff₀ hBq] at hqlo
    exact_mod_cast hqlo
  have hAhi : A < 2 ^ 53 * B := by
    rw [div_lt_iff₀ hBq] at hqhi
    exact_mod_cast hqhi
  have hr1q : (r : ℚ) ≤ (A : ℚ) / B + 1 / 2 := by
    rw [← sub_le_iff_le_add, le_div_iff₀ hBq]
    have : ((2 * (r * B) : Nat) : ℚ) ≤ ((2 * A + B : Nat) : ℚ) := by exact_mod_cast hr1
    push_cast at this
    linarith
  have hr2q : (A : ℚ) / B - 1 / 2 ≤ (r : ℚ) := by
    rw [sub_le_iff_le_add, div_le_iff₀ hBq]
    have : ((2 * A : Nat) : ℚ) ≤ ((2 * (r * B) + B : Nat) : ℚ) := by exact_mod_cast hr2
    push_cast at this
    linarith
  refine ⟨?_, ?_, ?_, ?_⟩
  · by_contra hlt
    have hlt' : r + 1 ≤ 2 ^ 52 := by omega
    have : (r + 1) * B ≤ 2 ^ 52 * B := Nat.mul_le_mul_right B hlt'
    have e : (r + 1) * B = r * B + B := by ring
    omega
  · by_contra hgt
    have hgt' : 2 ^ 53 + 1 ≤ r := by omega
    have : (2 ^ 53 + 1) * B ≤ r * B := Nat.mul_le_mul_right B hgt'
    have e : (2 ^ 53 + 1) * B = 2 ^ 53 * B + B := by ring
    omega
  · have hy : (a : ℚ) / b = (A : ℚ) / B * (2 : ℚ) ^ (binadeOf a b - 52) := by
      rw [hq]; field_simp; ring
    have habs : |(r : ℚ) - (A : ℚ) / B| ≤ 1 / 2 := abs_le.mpr ⟨by linarith, by linarith⟩
    rw [hy, ← sub_mul, abs_mul, abs_of_pos hu]
    calc |(r : ℚ) - (A : ℚ) / B| * (2 : ℚ) ^ (binadeOf a b - 52)
        ≤ 1 / 2 * (2 : ℚ) ^ (binadeOf a b - 52) := mul_le_mul_of_nonneg_right habs hu.le
      _ = (2 : ℚ) ^ (binadeOf a b - 52) / 2 := by ring
  · rw [show binadeOf a b - 52 + 52 = binadeOf a b by ring]
    exact hlo

theorem floorMul_nonneg {x : ℚ} {n : Int} (hx : 0 ≤ x) (hn : 0 ≤ n) : 0 ≤ floorMul x n := by
  have hnum : 0 ≤ x.num := Rat.num_nonneg.mpr hx
  have hp : 0 ≤ x.num * n := mul_nonneg hnum hn
  unfold floorMul
  split
  · exact le_refl 0
  · split
    · exact Int.natCast_nonneg _
    · omega

/-- The double nearest to a positive `a / b` is at most `a / b * (1 + 2^-53)`. -/
theorem nearestDouble_le {a b : Nat} (ha : 0 < a) (hb : 0 < b) :
    ((nearestDouble a b).1 : ℚ) * (2 : ℚ) ^ (nearestDouble a b).2 ≤
      (a : ℚ) / b * (1 + 1 / 2 ^ 53) := by
  obtain ⟨_, _, habs, hlo⟩ := nearestDouble_spec ha hb
  have h1 := (abs_le.mp habs).2
  have hsplit : (2 : ℚ) ^ ((nearestDouble a b).2 + 52) = (2 : ℚ) ^ (nearestDouble a b).2 * 2 ^ 52 := by
    rw [zpow_add₀ (by norm_num)]
    norm_num
  rw [hsplit] at hlo
  have hu : (0 : ℚ) < (2 : ℚ) ^ (nearestDouble a b).2 := zpow_pos (by norm_num) _
  nlinarith

theorem floorMul_lt_of_le {x : ℚ} {n : Int} (h0 : 0 ≤ x) (h1 : x ≤ 1 - 1 / 2 ^ 53)
    (hn : 0 < n) : floorMul x n < n := by
  have hnum : 0 ≤ x.num := Rat.num_nonneg.mpr h0
  unfold floorMul
  split
  · exact hn
  · split
    · rename_i hpos
      have ha : 0 < (x.num * n).natAbs := Int.natAbs_pos.mpr (by omega)
      have hb : 0 < x.den := x.den_pos
      have hle := nearestDouble_le ha hb
      have hfl := floorPow2_le (nearestDouble (x.num * n).natAbs x.den).1
        (nearestDouble (x.num * n).natAbs x.den).2
      have hy : ((x.num * n).natAbs : ℚ) / x.den = x * n := by
        have e1 : (((x.num * n).natAbs : Int) : ℚ) = ((x.num * n : Int) : ℚ) := by
          rw [Int.natAbs_of_nonneg hpos.le]
        have e2 : ((x.num * n).natAbs : ℚ) = (x.num : ℚ) * n := by
          rw [← Int.cast_natCast, e1]; push_cast; ring
        rw [e2]
        conv_rhs => rw [← Rat.num_div_den x]
        ring
      rw [hy] at hle
      have hnq : (0 : ℚ) < n := by exact_mod_cast hn
      have hlt : ((floorPow2 (nearestDouble (x.num * n).natAbs x.den).1
          (nearestDouble (x.num * n).natAbs x.den).2 : Nat) : ℚ) < n := by
        have : x * n * (1 + 1 / 2 ^ 53) < n := by
          have h2 : x * (1 + 1 / 2 ^ 53) < 1 := by
            have : x * (1 + 1 / 2 ^ 53) ≤ (1 - 1 / 2 ^ 53) * (1 + 1 / 2 ^ 53) :=
              mul_le_mul_of_nonneg_right h1 (by norm_num)
            have : (1 - 1 / 2 ^ 53 : ℚ) * (1 + 1 / 2 ^ 53) < 1 := by norm_num
            linarith
          nlinarith
        linarith
      exact_mod_cast hlt
    · rename_i h1' h2'
      have := mul_nonneg hnum hn.le
      omega

/-- A double below one is at most `1 - 2^-53`. -/
theorem unitDouble_le {x : ℚ} (h : UnitDouble x) : x ≤ 1 - 1 / 2 ^ 53 := by
  obtain ⟨⟨m, e, hm, _, _, hx⟩, h0, h1⟩ := h
  by_cases he : -53 ≤ e
  · -- `x * 2^53` is an integer below `2^53`
    have hk : (2 : ℚ) ^ e * 2 ^ 53 = ((2 ^ (e + 53).toNat : Int) : ℚ) := by
      push_cast
      rw [two_zpow_toNat (show (0 : Int) ≤ e + 53 by omega), zpow_add₀ (by norm_num)]
      norm_num
    have hK : x * 2 ^ 53 = ((m * 2 ^ (e + 53).toNat : Int) : ℚ) := by
      rw [hx, mul_assoc, hk]; push_cast; ring
    have hlt : ((m * 2 ^ (e + 53).toNat : Int) : ℚ) < ((2 ^ 53 : Int) : ℚ) := by
      rw [← hK]; push_cast; nlinarith
    have hlt' : m * 2 ^ (e + 53).toNat < 2 ^ 53 := by exact_mod_cast hlt
    have hle' : m * 2 ^ (e + 53).toNat ≤ 2 ^ 53 - 1 := by omega
    have hle : ((m * 2 ^ (e + 53).toNat : Int) : ℚ) ≤ ((2 ^ 53 - 1 : Int) : ℚ) := by
      exact_mod_cast hle'
    rw [← hK] at hle
    push_cast at hle
    have : x = x * 2 ^ 53 / 2 ^ 53 := by field_simp
    rw [this]
    rw [div_le_iff₀ (by norm_num)]
    norm_num at hle ⊢
    linarith
  · have hpow : (2 : ℚ) ^ e ≤ (2 : ℚ) ^ (-54 : Int) := zpow_le_zpow_right₀ (by norm_num) (by omega)
    have hmq : (m : ℚ) < 2 ^ 53 := by
      have : m < 2 ^ 53 := lt_of_le_of_lt (le_abs_self m) hm
      exact_mod_cast this
    have hpos : (0 : ℚ) < (2 : ℚ) ^ e := zpow_pos (by norm_num) _
    have h54 : (2 : ℚ) ^ (-54 : Int) = 1 / 2 ^ 54 := by
      rw [zpow_neg]; norm_num
    rw [h54] at hpow
    have : x < 2 ^ 53 * (1 / 2 ^ 54) := by
      rw [hx]
      calc (m : ℚ) * (2 : ℚ) ^ e < 2 ^ 53 * (2 : ℚ) ^ e := mul_lt_mul_of_pos_right hmq hpos
        _ ≤ 2 ^ 53 * (1 / 2 ^ 54) := mul_le_mul_of_nonneg_left hpow (by norm_num)
    norm_num at this ⊢
    linarith

/-- A product that the rounding carries over an integer: the exact product of
`6004799503160661 / 2^53` and `3` is below `2`, the nearest double is `2`. -/
theorem floorMul_rounded_three :
    floorMul (mkRat 6004799503160661 9007199254740992) 3 = 2 := by decide

/-- A product that the rounding carries over an integer: the exact product of
`6235753330205302 / 2^53` and `26` is below `18`, the nearest double is `18`. -/
theorem floorMul_rounded_twenty_six :
    floorMul (mkRat 6235753330205302 9007199254740992) 26 = 18 := by decide

/-- For a double `x` in `[0, 1)` and a positive integer `n` the index
`Math.floor(x * n)` is below `n`. -/
theorem floorMul_lt {x : ℚ} {n : Int} (hx : UnitDouble x) (hn : 0 < n) : floorMul x n < n :=
  floorMul_lt_of_le hx.2.1 (unitDouble_le hx) hn

theorem unitDouble_zero : UnitDouble 0 :=
  ⟨⟨0, 0, by norm_num, by norm_num, by norm_num, by norm_num⟩, le_refl 0, by norm_num⟩

theorem validRand_zero : ValidRand (fun _ => 0) := fun _ => unitDouble_zero

/-! ## Reading and writing cells -/

theorem square_emptyGrid (N : Int) : Square N (emptyGrid N) := by
  refine ⟨by simp [emptyGrid], ?_⟩
  intro row hrow
  rw [emptyGrid, List.mem_replicate] at hrow
  simp [hrow.2]

theorem idx?_eq_some {α : Type} {xs : List α} {i : Int} {a : α} (h : idx? xs i = some a) :
    0 ≤ i ∧ i.toNat < xs.length ∧ xs[i.toNat]? = some a := by
  unfold idx? at h
  split at h
  · rename_i h0
    exact ⟨h0, (List.getElem?_eq_some_iff.mp h).1, h⟩
  · cases h

theorem idx?_of_lt {α : Type} {xs : List α} {i : Int} (h0 : 0 ≤ i) (h1 : i.toNat < xs.length) :
    ∃ a, idx? xs i = some a ∧ a ∈ xs := by
  refine ⟨xs[i.toNat], ?_, List.getElem_mem _⟩
  unfold idx?
  rw [if_pos h0]
  exact List.getElem?_eq_getElem h1

theorem idx?_set_self {α : Type} {xs : List α} {i : Int} (a : α) (h0 : 0 ≤ i)
    (h1 : i.toNat < xs.length) : idx? (xs.set i.toNat a) i = some a := by
  unfold idx?
  rw [if_pos h0]
  exact List.getElem?_set_self h1

theorem idx?_set_ne {α : Type} {xs : List α} {i j : Int} (a : α) (h0 : 0 ≤ i)
    (hij : j ≠ i) : idx? (xs.set i.toNat a) j = idx? xs j := by
  unfold idx?
  by_cases hj : 0 ≤ j
  · have hne : i.toNat ≠ j.toNat := by omega
    rw [if_pos hj, if_pos hj, List.getElem?_set_ne hne]
  · rw [if_neg hj, if_neg hj]

theorem readCell_eq_some {g : Grid} {r c : Int} {v : Cell} (h : readCell g r c = some v) :
    ∃ row, idx? g r = some row ∧ v = (idx? row c).getD Cell.undef := by
  unfold readCell at h
  split at h
  · cases h
  · rename_i row hrow
    exact ⟨row, hrow, by cases h; rfl⟩

/-- A read that yields a value other than `undefined` was made inside the grid. -/
theorem inGrid_of_readCell {N : Int} {g : Grid} {r c : Int} {v : Cell} (hg : Square N g)
    (h : readCell g r c = some v) (hv : v ≠ Cell.undef) : InGrid N r c := by
  obtain ⟨row, hrow, hval⟩ := readCell_eq_some h
  obtain ⟨hr0, hr1, hr2⟩ := idx?_eq_some hrow
  have hmem : row ∈ g := List.getElem?_mem hr2
  have hlen := hg.2 row hmem
  cases hc : idx? row c with
  | none => rw [hc] at hval; exact absurd hval hv
  | some x =>
    obtain ⟨hc0, hc1, _⟩ := idx?_eq_some hc
    rw [hg.1] at hr1
    rw [hlen] at hc1
    refine ⟨hr0, ?_, hc0, ?_⟩ <;> omega

/-- Inside the grid a read yields what the cell holds. -/
theorem readCell_of_inGrid {N : Int} {g : Grid} {r c : Int} (hg : Square N g)
    (h : InGrid N r c) : ∃ row v, idx? g r = some row ∧ idx? row c = some v ∧
      readCell g r c = some v := by
  obtain ⟨hr0, hr1, hc0, hc1⟩ := h
  have hr : r.toNat < g.length := by rw [hg.1]; omega
  obtain ⟨row, hrow, hmem⟩ := idx?_of_lt hr0 hr
  have hc : c.toNat < row.length := by rw [hg.2 _ hmem]; omega
  obtain ⟨v, hcell, _⟩ := idx?_of_lt hc0 hc
  refine ⟨row, v, hrow, hcell, ?_⟩
  simp only [readCell, hrow, hcell, Option.getD_some]

/-- A read succeeds as soon as the row exists. -/
theorem readCell_isSome_of_row {N : Int} {g : Grid} {r : Int} (c : Int) (hg : Square N g)
    (h0 : 0 ≤ r) (h1 : r < N) : ∃ v, readCell g r c = some v := by
  have hr : r.toNat < g.length := by rw [hg.1]; omega
  obtain ⟨row, hrow, _⟩ := idx?_of_lt h0 hr
  exact ⟨(idx? row c).getD Cell.undef, by simp only [readCell, hrow]⟩

theorem writeCell_eq_some {g g' : Grid} {r c : Int} {v : Cell}
    (h : writeCell g r c v = some g') :
    ∃ row, idx? g r = some row ∧ 0 ≤ c ∧ c.toNat < row.length ∧
      g' = g.set r.toNat (row.set c.toNat v) := by
  unfold writeCell at h
  split at h
  · cases h
  · rename_i row hrow
    split at h
    · rename_i hc
      exact ⟨row, hrow, hc.1, hc.2, by cases h; rfl⟩
    · cases h

/-- A cell that was read with a value other than `undefined` can be written. -/
theorem writeCell_isSome {g : Grid} {r c : Int} {x : Cell} (v : Cell)
    (h : readCell g r c = some x) (hx : x ≠ Cell.undef) : ∃ g', writeCell g r c v = some g' := by
  obtain ⟨row, hrow, hval⟩ := readCell_eq_some h
  cases hc : idx? row c with
  | none => rw [hc] at hval; exact absurd hval hx
  | some y =>
    obtain ⟨hc0, hc1, _⟩ := idx?_eq_some hc
    exact ⟨g.set r.toNat (row.set c.toNat v),
      by simp only [writeCell, hrow, hc0, hc1, and_self, if_true]⟩

theorem square_writeCell {N : Int} {g g' : Grid} {r c : Int} {v : Cell} (hg : Square N g)
    (h : writeCell g r c v = some g') : Square N g' := by
  obtain ⟨row, hrow, hc0, hc1, rfl⟩ := writeCell_eq_some h
  obtain ⟨_, _, hr2⟩ := idx?_eq_some hrow
  refine ⟨by simp [hg.1], ?_⟩
  intro row' hrow'
  rcases List.mem_or_eq_of_mem_set hrow' with h1 | h1
  · exact hg.2 _ h1
  · rw [h1, List.length_set]
    exact hg.2 _ (List.getElem?_mem hr2)

/-- After a write the written cell holds the value and every other read is as before. -/
theorem readCell_writeCell {g g' : Grid} {r c : Int} {v : Cell}
    (h : writeCell g r c v = some g') (r' c' : Int) :
    readCell g' r' c' = if r' = r ∧ c' = c then some v else readCell g r' c' := by
  obtain ⟨row, hrow, hc0, hc1, rfl⟩ := writeCell_eq_some h
  obtain ⟨hr0, hr1, hr2⟩ := idx?_eq_some hrow
  by_cases hrr : r' = r
  · subst hrr
    have h1 := idx?_set_self (row.set c.toNat v) hr0 hr1
    by_cases hcc : c' = c
    · subst hcc
      simp only [readCell, h1, idx?_set_self v hc0 hc1, Option.getD_some, and_self, if_true]
    · simp only [readCell, h1, hrow, idx?_set_ne v hc0 hcc, hcc, and_false, if_false]
  · simp only [readCell, idx?_set_ne _ hr0 hrr, hrr, false_and, if_false]

/-! ## Walks -/

theorem dir_vals {d : Int × Int} (h : d ∈ DIRECTIONS) :
    (d.1 = -1 ∨ d.1 = 0 ∨ d.1 = 1) ∧ (d.2 = -1 ∨ d.2 = 0 ∨ d.2 = 1) ∧ (d.1 ≠ 0 ∨ d.2 ≠ 0) := by
  simp only [DIRECTIONS, List.mem_cons, List.mem_singleton, List.not_mem_nil, or_false] at h
  rcases h with h | h | h | h | h | h | h | h <;> subst h <;> simp

theorem dir_of_idx? {i : Int} {d : Int × Int} (h : idx? DIRECTIONS i = some d) :
    d ∈ DIRECTIONS :=
  List.getElem?_mem (idx?_eq_some h).2.2

/-- Two indices of a walk that meet in one cell are equal. -/
theorem walk_injective {d : Int × Int} (hd : d.1 ≠ 0 ∨ d.2 ≠ 0) {r0 c0 : Int} {a b : Nat}
    (hr : r0 + (a : Int) * d.1 = r0 + (b : Int) * d.1)
    (hc : c0 + (a : Int) * d.2 = c0 + (b : Int) * d.2) : a = b := by
  rcases hd with h | h
  · have h1 : (a : Int) * d.1 = (b : Int) * d.1 := by linarith
    exact_mod_cast mul_right_cancel₀ h h1
  · have h1 : (a : Int) * d.2 = (b : Int) * d.2 := by linarith
    exact_mod_cast mul_right_cancel₀ h h1

theorem cellsFreeFrom_cons {g : Grid} {r0 c0 : Int} {d : Int × Int} {i : Nat} {ch : CodeUnit}
    {rest : List CodeUnit} :
    CellsFreeFrom g r0 c0 d i (ch :: rest) ↔
      (readCell g (r0 + (i : Int) * d.1) (c0 + (i : Int) * d.2) = some Cell.empty ∨
        readCell g (r0 + (i : Int) * d.1) (c0 + (i : Int) * d.2) = some (Cell.unit ch)) ∧
      CellsFreeFrom g r0 c0 d (i + 1) rest := by
  constructor
  · intro h
    refine ⟨by simpa using h 0 (by simp), ?_⟩
    intro j hj
    have e : i + 1 + j = i + (j + 1) := by omega
    rw [e]
    simpa using h (j + 1) (by simpa using hj)
  · rintro ⟨h0, h1⟩ j hj
    cases j with
    | zero => simpa using h0
    | succ j =>
      have e : i + (j + 1) = i + 1 + j := by omega
      rw [e]
      simpa using h1 j (by simpa using hj)

theorem canPlaceFrom_cons (g : Grid) (r0 c0 : Int) (d : Int × Int) (i : Nat) (ch : CodeUnit)
    (rest : List CodeUnit) :
    canPlaceFrom g r0 c0 d i (ch :: rest) =
      match readCell g (r0 + (i : Int) * d.1) (c0 + (i : Int) * d.2) with
      | none => none
      | some cell =>
        if cell ≠ Cell.empty ∧ cell ≠ Cell.unit ch then some false
        else canPlaceFrom g r0 c0 d (i + 1) rest := rfl

/-- The check loop ends with `canPlace` true exactly when every cell is free. -/
theorem canPlaceFrom_eq_true_iff {g : Grid} {r0 c0 : Int} {d : Int × Int} {i : Nat}
    {rest : List CodeUnit} :
    canPlaceFrom g r0 c0 d i rest = some true ↔ CellsFreeFrom g r0 c0 d i rest := by
  induction rest generalizing i with
  | nil =>
    simp only [canPlaceFrom, true_iff]
    intro j hj
    exact absurd hj (by simp)
  | cons ch rest ih =>
    rw [cellsFreeFrom_cons, ← ih, canPlaceFrom_cons]
    cases hread : readCell g (r0 + (i : Int) * d.1) (c0 + (i : Int) * d.2) with
    | none => simp
    | some cell =>
      by_cases hcell : cell ≠ Cell.empty ∧ cell ≠ Cell.unit ch
      · simp only [if_pos hcell]
        constructor
        · intro h; cases h
        · rintro ⟨h | h, _⟩
          · exact absurd (Option.some.inj h) hcell.1
          · exact absurd (Option.some.inj h) hcell.2
      · simp only [if_neg hcell]
        constructor
        · intro h
          refine ⟨?_, h⟩
          by_cases he : cell = Cell.empty
          · exact Or.inl (by rw [he])
          · by_cases hu : cell = Cell.unit ch
            · exact Or.inr (by rw [hu])
            · exact absurd ⟨he, hu⟩ hcell
        · exact fun h => h.2

/-- The check loop does not throw when every row it reads exists. -/
theorem canPlaceFrom_isSome {g : Grid} {r0 c0 : Int} {d : Int × Int} {i : Nat}
    {rest : List CodeUnit}
    (h : ∀ j, j < rest.length → ∃ v,
      readCell g (r0 + ((i + j : Nat) : Int) * d.1) (c0 + ((i + j : Nat) : Int) * d.2) = some v) :
    ∃ b, canPlaceFrom g r0 c0 d i rest = some b := by
  induction rest generalizing i with
  | nil => exact ⟨true, rfl⟩
  | cons ch rest ih =>
    obtain ⟨v, hv⟩ := h 0 (by simp)
    simp only [Nat.add_zero] at hv
    rw [canPlaceFrom_cons]
    simp only [hv]
    split
    · exact ⟨false, rfl⟩
    · apply ih
      intro j hj
      have e : i + 1 + j = i + (j + 1) := by omega
      rw [e]
      exact h (j + 1) (by simpa using hj)

/-- The write loop over cells that the check loop found free: it does not
throw, keeps the grid square, leaves the word along the walk and every other
cell as it was. -/
theorem writeFrom_spec {N : Int} {d : Int × Int} (hd : d.1 ≠ 0 ∨ d.2 ≠ 0) {r0 c0 : Int}
    {rest : List CodeUnit} {g : Grid} {i : Nat} (hfree : CellsFreeFrom g r0 c0 d i rest) :
    ∃ g', writeFrom g r0 c0 d i rest = some g' ∧ (Square N g → Square N g') ∧
      (∀ j (h : j < rest.length),
        readCell g' (r0 + ((i + j : Nat) : Int) * d.1) (c0 + ((i + j : Nat) : Int) * d.2)
          = some (Cell.unit (rest.get ⟨j, h⟩))) ∧
      (∀ r c, (∀ j, j < rest.length →
          ¬ (r = r0 + ((i + j : Nat) : Int) * d.1 ∧ c = c0 + ((i + j : Nat) : Int) * d.2)) →
        readCell g' r c = readCell g r c) := by
  induction rest generalizing i g with
  | nil =>
    refine ⟨g, rfl, id, ?_, fun _ _ _ => rfl⟩
    intro j hj
    exact absurd hj (by simp)
  | cons ch rest ih =>
    rw [cellsFreeFrom_cons] at hfree
    obtain ⟨h0, hrest⟩ := hfree
    have hw : ∃ g1, writeCell g (r0 + (i : Int) * d.1) (c0 + (i : Int) * d.2) (Cell.unit ch)
        = some g1 := by
      rcases h0 with h0 | h0
      · exact writeCell_isSome _ h0 (by simp)
      · exact writeCell_isSome _ h0 (by simp)
    obtain ⟨g1, hg1⟩ := hw
    have hother : ∀ j : Nat, readCell g1 (r0 + ((i + 1 + j : Nat) : Int) * d.1)
        (c0 + ((i + 1 + j : Nat) : Int) * d.2) =
        readCell g (r0 + ((i + 1 + j : Nat) : Int) * d.1)
          (c0 + ((i + 1 + j : Nat) : Int) * d.2) := by
      intro j
      rw [readCell_writeCell hg1, if_neg]
      rintro ⟨e1, e2⟩
      have := walk_injective hd e1 e2
      omega
    have hfree1 : CellsFreeFrom g1 r0 c0 d (i + 1) rest := by
      intro j hj
      rw [hother j]
      exact hrest j hj
    obtain ⟨g', hg', hsq, hon, hoff⟩ := ih hfree1
    refine ⟨g', ?_, fun h => hsq (square_writeCell h hg1), ?_, ?_⟩
    · show (match writeCell g (r0 + (i : Int) * d.1) (c0 + (i : Int) * d.2) (Cell.unit ch) with
        | none => none
        | some g' => writeFrom g' r0 c0 d (i + 1) rest) = some g'
      simp only [hg1, hg']
    · intro j hj
      cases j with
      | zero =>
        simp only [Nat.add_zero, List.get_eq_getElem, List.getElem_cons_zero]
        rw [hoff, readCell_writeCell hg1, if_pos ⟨rfl, rfl⟩]
        rintro j _ ⟨e1, e2⟩
        have := walk_injective hd e1 e2
        omega
      | succ j =>
        have e : i + (j + 1) = i + 1 + j := by omega
        rw [e]
        simpa using hon j (by simpa using hj)
    · intro r c hrc
      rw [hoff, readCell_writeCell hg1, if_neg]
      · intro e
        exact hrc 0 (by simp) (by simpa using e)
      · intro j hj
        have e : i + 1 + j = i + (j + 1) := by omega
        rw [e]
        exact hrc (j + 1) (by simpa using hj)

/-! ## What the claims speak about -/

theorem readCell_emptyGrid {N r c : Int} (h : InGrid N r c) :
    readCell (emptyGrid N) r c = some Cell.empty := by
  obtain ⟨row, v, hrow, hv, hread⟩ := readCell_of_inGrid (square_emptyGrid N) h
  have hmem : row ∈ emptyGrid N := List.getElem?_mem (idx?_eq_some hrow).2.2
  rw [emptyGrid, List.mem_replicate] at hmem
  have hvm : v ∈ row := List.getElem?_mem (idx?_eq_some hv).2.2
  rw [hmem.2, List.mem_replicate] at hvm
  rw [hread, hvm.2]

theorem placeInv_init (N : Int) : PlaceInv N ⟨emptyGrid N, [], 0⟩ := by
  refine ⟨square_emptyGrid N, ?_, ?_⟩
  · intro w hw
    cases hw
  · intro r c h
    exact Or.inl (readCell_emptyGrid h)

/-- A word that can be read off the grid is no longer than the grid. -/
theorem length_le_of_readable {N : Int} {g : Grid} {w : Word} (h : Readable N g w) :
    (w.length : Int) ≤ N := by
  obtain ⟨r0, c0, d, hin, hd, hreads⟩ := h
  by_cases hw : w.length = 0
  · rw [hw]
    have := hin.1
    have := hin.2.1
    push_cast
    omega
  · have hlast := (hreads (w.length - 1) (by omega)).1
    obtain ⟨h1, h2, h3⟩ := dir_vals hd
    have hcast : ((w.length - 1 : Nat) : Int) = (w.length : Int) - 1 := by omega
    rw [hcast] at hlast
    obtain ⟨a1, a2, a3, a4⟩ := hin
    obtain ⟨b1, b2, b3, b4⟩ := hlast
    rcases h1 with e1 | e1 | e1 <;> rcases h2 with e2 | e2 | e2 <;> rw [e1] at b1 b2 <;>
      rw [e2] at b3 b4 <;> omega

/-! ## One trial -/

/-- What a committed trial has done. -/
theorem trial_commit {rnd : Rand} {N : Int} {g g' : Grid} {word : Word} {k : Nat}
    (h : trial rnd N g word k = some (some g')) :
    ∃ d, idx? DIRECTIONS (floorMul (rnd k) 8) = some d ∧
      endInBounds N (floorMul (rnd (k + 1)) N + ((word.length : Int) - 1) * d.1)
        (floorMul (rnd (k + 2)) N + ((word.length : Int) - 1) * d.2) = true ∧
      CellsFreeFrom g (floorMul (rnd (k + 1)) N) (floorMul (rnd (k + 2)) N) d 0 word ∧
      writeFrom g (floorMul (rnd (k + 1)) N) (floorMul (rnd (k + 2)) N) d 0 word = some g' := by
  unfold trial at h
  split at h
  · cases h
  · rename_i d hd
    refine ⟨d, hd, ?_⟩
    simp only at h
    split at h
    · rename_i hend
      split at h
      · cases h
      · cases h
      · rename_i hcan
        split at h
        · cases h
        · rename_i g'' hw
          have e : g'' = g' := by simpa using h
          subst e
          exact ⟨hend, canPlaceFrom_eq_true_iff.mp hcan, hw⟩
    · cases h

/-- A trial whose direction index is in range, whose end cell is in bounds and
whose cells are all free commits. -/
theorem trial_of_legal {rnd : Rand} {N : Int} {g : Grid} {word : Word} {k : Nat}
    {d : Int × Int} (hd : idx? DIRECTIONS (floorMul (rnd k) 8) = some d)
    (hend : endInBounds N (floorMul (rnd (k + 1)) N + ((word.length : Int) - 1) * d.1)
        (floorMul (rnd (k + 2)) N + ((word.length : Int) - 1) * d.2) = true)
    (hfree : CellsFreeFrom g (floorMul (rnd (k + 1)) N) (floorMul (rnd (k + 2)) N) d 0 word) :
    ∃ g', trial rnd N g word k = some (some g') := by
  obtain ⟨g', hg', _⟩ := writeFrom_spec (N := N) (dir_vals (dir_of_idx? hd)).2.2 hfree
  refine ⟨g', ?_⟩
  unfold trial
  simp only [hd, hend, if_true, canPlaceFrom_eq_true_iff.mpr hfree, hg']

/-- The grid after a committed trial: square again, with the word along the
walk, every other cell as before, and every letter that was there still there. -/
theorem trial_commit_grid {rnd : Rand} {N : Int} {g g' : Grid} {word : Word} {k : Nat}
    (hg : Square N g) (h : trial rnd N g word k = some (some g')) :
    ∃ d, idx? DIRECTIONS (floorMul (rnd k) 8) = some d ∧ Square N g' ∧
      ReadsAt N g' word (floorMul (rnd (k + 1)) N) (floorMul (rnd (k + 2)) N) d ∧
      (∀ r c, (∀ j : Nat, j < word.length →
          ¬ (r = floorMul (rnd (k + 1)) N + (j : Int) * d.1 ∧
             c = floorMul (rnd (k + 2)) N + (j : Int) * d.2)) →
        readCell g' r c = readCell g r c) ∧
      (∀ r c u, readCell g r c = some (Cell.unit u) → readCell g' r c = some (Cell.unit u)) := by
  obtain ⟨d, hd, _, hfree, hw⟩ := trial_commit h
  obtain ⟨g'', hw', hsq, hon, hoff⟩ :=
    writeFrom_spec (N := N) (dir_vals (dir_of_idx? hd)).2.2 hfree
  have e : g'' = g' := by rw [hw] at hw'; exact (Option.some.inj hw').symm
  subst e
  simp only [Nat.zero_add] at hon hoff
  have hsq' := hsq hg
  refine ⟨d, hd, hsq', ?_, hoff, ?_⟩
  · intro i hi
    exact ⟨inGrid_of_readCell hsq' (hon i hi) (by simp), hon i hi⟩
  · intro r c u hu
    by_cases hwalk : ∃ j : Nat, j < word.length ∧
        (r = floorMul (rnd (k + 1)) N + (j : Int) * d.1 ∧
         c = floorMul (rnd (k + 2)) N + (j : Int) * d.2)
    · obtain ⟨j, hj, hr, hc⟩ := hwalk
      have hf := hfree j hj
      simp only [Nat.zero_add] at hf
      rw [← hr, ← hc, hu] at hf
      rcases hf with hf | hf
      · cases hf
      · rw [hr, hc, hon j hj, ← Option.some.inj hf]
    · rw [hoff r c (fun j hj hrc => hwalk ⟨j, hj, hrc⟩), hu]

/-! ## The loops over the trials and over the words -/

theorem placeLoop_succ (rnd : Rand) (N : Int) (word : Word) (g : Grid) (n k : Nat) :
    placeLoop rnd N word g (n + 1) k =
      match trial rnd N g word k with
      | none => none
      | some none => placeLoop rnd N word g n (k + 3)
      | some (some g') => some (g', true, k + 3) := rfl

/-- The trial loop either leaves the grid alone or ends on a committed trial. -/
theorem placeLoop_result {rnd : Rand} {N : Int} {word : Word} {g g' : Grid} {n k k' : Nat}
    {placed : Bool} (h : placeLoop rnd N word g n k = some (g', placed, k')) :
    (placed = false ∧ g' = g) ∨
      (placed = true ∧ ∃ k0, trial rnd N g word k0 = some (some g')) := by
  induction n generalizing k with
  | zero =>
    simp only [placeLoop, Option.some.injEq, Prod.mk.injEq] at h
    exact Or.inl ⟨h.2.1.symm, h.1.symm⟩
  | succ n ih =>
    rw [placeLoop_succ] at h
    split at h
    · cases h
    · exact ih h
    · rename_i g'' ht
      simp only [Option.some.injEq, Prod.mk.injEq] at h
      refine Or.inr ⟨h.2.1.symm, k, ?_⟩
      rw [ht, h.1]

theorem readsAt_mono {N : Int} {g g' : Grid} {w : Word} {r0 c0 : Int} {d : Int × Int}
    (hmono : ∀ r c u, readCell g r c = some (Cell.unit u) → readCell g' r c = some (Cell.unit u))
    (h : ReadsAt N g w r0 c0 d) : ReadsAt N g' w r0 c0 d :=
  fun i hi => ⟨(h i hi).1, hmono _ _ _ (h i hi).2⟩

theorem readable_nil {N : Int} (hN : 1 ≤ N) (g : Grid) : Readable N g [] := by
  refine ⟨0, 0, (0, 1), ⟨le_refl 0, by omega, le_refl 0, by omega⟩, by simp [DIRECTIONS], ?_⟩
  intro i hi
  exact absurd hi (by simp)

theorem placeWord_eq_some {rnd : Rand} {N : Int} {s s' : PlaceState} {word : Word}
    (h : placeWord rnd N s word = some s') :
    ∃ placed, placeLoop rnd N word s.grid 150 s.draws = some (s'.grid, placed, s'.draws) ∧
      s'.placedWords = if placed then s.placedWords ++ [word] else s.placedWords := by
  unfold placeWord at h
  split at h
  · cases h
  · rename_i g placed k hloop
    cases h
    exact ⟨placed, hloop, rfl⟩

/-- The body of the loop over the words keeps the invariant. -/
theorem placeWord_inv {rnd : Rand} {N : Int} (hN : 1 ≤ N) {s s' : PlaceState} {word : Word}
    (hinv : PlaceInv N s) (h : placeWord rnd N s word = some s') : PlaceInv N s' := by
  obtain ⟨placed, hloop, hwords⟩ := placeWord_eq_some h
  obtain ⟨hsq, hread, hcov⟩ := hinv
  rcases placeLoop_result hloop with ⟨hp, hg⟩ | ⟨hp, k0, ht⟩
  · rw [hp] at hwords
    simp only [Bool.false_eq_true, if_false] at hwords
    unfold PlaceInv
    rw [hg, hwords]
    exact ⟨hsq, hread, hcov⟩
  · rw [hp] at hwords
    simp only [if_true] at hwords
    obtain ⟨d, hd, hsq', hreads, hoff, hmono⟩ := trial_commit_grid hsq ht
    have hdm := dir_of_idx? hd
    have hstart : word ≠ [] → InGrid N (floorMul (rnd (k0 + 1)) N) (floorMul (rnd (k0 + 2)) N) := by
      intro hne
      have h0 := (hreads 0 (List.length_pos.mpr hne)).1
      simpa using h0
    have hnew : Readable N s'.grid word := by
      by_cases hne : word = []
      · rw [hne]; exact readable_nil hN _
      · exact ⟨_, _, d, hstart hne, hdm, hreads⟩
    refine ⟨hsq', ?_, ?_⟩
    · intro w hw
      rw [hwords, List.mem_append, List.mem_singleton] at hw
      rcases hw with hw | hw
      · obtain ⟨r0, c0, d', hin, hd', hr⟩ := hread w hw
        exact ⟨r0, c0, d', hin, hd', readsAt_mono hmono hr⟩
      · rw [hw]; exact hnew
    · intro r c hrc
      by_cases hwalk : ∃ j : Nat, j < word.length ∧
          (r = floorMul (rnd (k0 + 1)) N + (j : Int) * d.1 ∧
           c = floorMul (rnd (k0 + 2)) N + (j : Int) * d.2)
      · obtain ⟨j, hj, hr, hc⟩ := hwalk
        have hne : word ≠ [] := by
          intro e; rw [e] at hj; exact absurd hj (by simp)
        refine Or.inr ⟨word, ?_, _, _, d, hstart hne, hdm, hreads, j, hj, hr, hc, ?_⟩
        · rw [hwords]; simp
        · rw [hr, hc]; exact (hreads j hj).2
      · have hsame := hoff r c (fun j hj hrc' => hwalk ⟨j, hj, hrc'⟩)
        rcases hcov r c hrc with he | ⟨w, hw, r0, c0, d', hin, hd', hr, i, hi, e1, e2, hcell⟩
        · exact Or.inl (by rw [hsame, he])
        · refine Or.inr ⟨w, ?_, r0, c0, d', hin, hd', readsAt_mono hmono hr, i, hi, e1, e2, ?_⟩
          · rw [hwords]; exact List.mem_append_left _ hw
          · rw [hsame, hcell]

theorem placeAll_cons (rnd : Rand) (N : Int) (s : PlaceState) (word : Word) (rest : List Word) :
    placeAll rnd N s (word :: rest) =
      match placeWord rnd N s word with
      | none => none
      | some s' => placeAll rnd N s' rest := rfl

/-- The loop over the words keeps the invariant. -/
theorem placeAll_inv {rnd : Rand} {N : Int} (hN : 1 ≤ N) {ws : List Word} {s s' : PlaceState}
    (hinv : PlaceInv N s) (h : placeAll rnd N s ws = some s') : PlaceInv N s' := by
  induction ws generalizing s with
  | nil =>
    simp only [placeAll, Option.some.injEq] at h
    rw [← h]; exact hinv
  | cons word rest ih =>
    rw [placeAll_cons] at h
    split at h
    · cases h
    · rename_i s1 h1
      exact ih (placeWord_inv hN hinv h1) h

/-- The words placed by the loop are a sublist of the words it went through. -/
theorem placeAll_sublist {rnd : Rand} {N : Int} {ws : List Word} {s s' : PlaceState}
    (h : placeAll rnd N s ws = some s') :
    ∃ l, List.Sublist l ws ∧ s'.placedWords = s.placedWords ++ l := by
  induction ws generalizing s with
  | nil =>
    simp only [placeAll, Option.some.injEq] at h
    exact ⟨[], List.Sublist.refl _, by rw [← h]; simp⟩
  | cons word rest ih =>
    rw [placeAll_cons] at h
    split at h
    · cases h
    · rename_i s1 h1
      obtain ⟨l, hl, hs'⟩ := ih h
      obtain ⟨placed, _, hwords⟩ := placeWord_eq_some h1
      cases placed with
      | false =>
        simp only [Bool.false_eq_true, if_false] at hwords
        exact ⟨l, List.Sublist.cons _ hl, by rw [hs', hwords]⟩
      | true =>
        simp only [if_true] at hwords
        exact ⟨word :: l, List.Sublist.cons₂ _ hl, by rw [hs', hwords]; simp⟩

/-! ## No step throws when the draws lie in `[0, 1)` -/

theorem endInBounds_eq_true {N r c : Int} : endInBounds N r c = true ↔ InGrid N r c := by
  unfold endInBounds InGrid
  simp only [Bool.not_eq_true', Bool.or_eq_false_iff, decide_eq_false_iff_not, not_lt, ge_iff_le,
    not_le]
  constructor
  · rintro ⟨⟨⟨h1, h2⟩, h3⟩, h4⟩; exact ⟨h1, h2, h3, h4⟩
  · rintro ⟨h1, h2, h3, h4⟩; exact ⟨⟨⟨h1, h2⟩, h3⟩, h4⟩

/-- The cells of a walk between a start cell and an end cell that are both in
the grid are all in the grid. -/
theorem walk_inGrid {N r0 c0 : Int} {d : Int × Int} {len j : Nat} (hd : d ∈ DIRECTIONS)
    (hstart : InGrid N r0 c0)
    (hend : InGrid N (r0 + ((len : Int) - 1) * d.1) (c0 + ((len : Int) - 1) * d.2))
    (hj : j < len) : InGrid N (r0 + (j : Int) * d.1) (c0 + (j : Int) * d.2) := by
  obtain ⟨h1, h2, _⟩ := dir_vals hd
  obtain ⟨a1, a2, a3, a4⟩ := hstart
  obtain ⟨b1, b2, b3, b4⟩ := hend
  unfold InGrid
  rcases h1 with e1 | e1 | e1 <;> rcases h2 with e2 | e2 | e2 <;> rw [e1] at b1 b2 ⊢ <;>
    rw [e2] at b3 b4 ⊢ <;> omega

theorem direction_isSome {x : ℚ} (hx : UnitDouble x) :
    ∃ d, idx? DIRECTIONS (floorMul x 8) = some d := by
  have h0 := hx.2.1
  have hlt : (floorMul x 8).toNat < DIRECTIONS.length := by
    have := floorMul_lt hx (n := 8) (by norm_num)
    have := floorMul_nonneg h0 (n := 8) (by norm_num)
    simp only [DIRECTIONS, List.length_cons, List.length_nil]
    omega
  obtain ⟨d, hd, _⟩ := idx?_of_lt (floorMul_nonneg h0 (by norm_num)) hlt
  exact ⟨d, hd⟩

theorem start_inGrid {rnd : Rand} (hv : ValidRand rnd) {N : Int} (hN : 1 ≤ N) (k : Nat) :
    InGrid N (floorMul (rnd (k + 1)) N) (floorMul (rnd (k + 2)) N) :=
  ⟨floorMul_nonneg (hv _).2.1 (by omega), floorMul_lt (hv _) (by omega),
   floorMul_nonneg (hv _).2.1 (by omega), floorMul_lt (hv _) (by omega)⟩

/-- With draws in `[0, 1)` a trial does not throw: it commits when it is
legal and is rejected otherwise. -/
theorem trial_total {rnd : Rand} (hv : ValidRand rnd) {N : Int} (hN : 1 ≤ N) {g : Grid}
    (hg : Square N g) (word : Word) (k : Nat) :
    (LegalTrial rnd N g word k ∧ ∃ g', trial rnd N g word k = some (some g')) ∨
    (¬ LegalTrial rnd N g word k ∧ trial rnd N g word k = some none) := by
  by_cases hl : LegalTrial rnd N g word k
  · obtain ⟨d, hd, hend, hfree⟩ := hl
    exact Or.inl ⟨⟨d, hd, hend, hfree⟩, trial_of_legal hd hend hfree⟩
  · refine Or.inr ⟨hl, ?_⟩
    obtain ⟨d, hd⟩ := direction_isSome (hv k)
    unfold trial
    simp only [hd]
    split
    · rename_i hend
      have hcells : ∀ j, j < word.length → ∃ v,
          readCell g (floorMul (rnd (k + 1)) N + ((0 + j : Nat) : Int) * d.1)
            (floorMul (rnd (k + 2)) N + ((0 + j : Nat) : Int) * d.2) = some v := by
        intro j hj
        rw [Nat.zero_add]
        have hin := walk_inGrid (dir_of_idx? hd) (start_inGrid hv hN k)
          (endInBounds_eq_true.mp hend) hj
        exact readCell_isSome_of_row _ hg hin.1 hin.2.1
      obtain ⟨b, hb⟩ := canPlaceFrom_isSome hcells
      cases b with
      | false => simp only [hb]
      | true => exact absurd ⟨d, hd, hend, canPlaceFrom_eq_true_iff.mp hb⟩ hl
    · rfl

theorem trial_square {rnd : Rand} {N : Int} {g g' : Grid} {word : Word} {k : Nat}
    (hg : Square N g) (h : trial rnd N g word k = some (some g')) : Square N g' := by
  obtain ⟨_, _, hsq, _⟩ := trial_commit_grid hg h
  exact hsq

/-- With draws in `[0, 1)` the trial loop does not throw. -/
theorem placeLoop_isSome {rnd : Rand} (hv : ValidRand rnd) {N : Int} (hN : 1 ≤ N) {g : Grid}
    (hg : Square N g) (word : Word) (n k : Nat) :
    ∃ res, placeLoop rnd N word g n k = some res := by
  induction n generalizing k with
  | zero => exact ⟨_, rfl⟩
  | succ n ih =>
    rw [placeLoop_succ]
    rcases trial_total hv hN hg word k with ⟨_, g', ht⟩ | ⟨_, ht⟩
    · exact ⟨(g', true, k + 3), by simp only [ht]⟩
    · simp only [ht]
      exact ih (k + 3)

theorem placeLoop_square {rnd : Rand} {N : Int} {word : Word} {g g' : Grid} {n k k' : Nat}
    {placed : Bool} (hg : Square N g) (h : placeLoop rnd N word g n k = some (g', placed, k')) :
    Square N g' := by
  rcases placeLoop_result h with ⟨_, e⟩ | ⟨_, k0, ht⟩
  · rw [e]; exact hg
  · exact trial_square hg ht

/-- With draws in `[0, 1)` the loop over the words does not throw. -/
theorem placeAll_isSome {rnd : Rand} (hv : ValidRand rnd) {N : Int} (hN : 1 ≤ N)
    (ws : List Word) {s : PlaceState} (hg : Square N s.grid) :
    ∃ s', placeAll rnd N s ws = some s' := by
  induction ws generalizing s with
  | nil => exact ⟨s, rfl⟩
  | cons word rest ih =>
    obtain ⟨⟨g, placed, k⟩, hloop⟩ := placeLoop_isSome hv hN hg word 150 s.draws
    have hw : placeWord rnd N s word =
        some ⟨g, if placed then s.placedWords ++ [word] else s.placedWords, k⟩ := by
      unfold placeWord
      simp only [hloop]
    rw [placeAll_cons]
    simp only [hw]
    exact ih (placeLoop_square hg hloop)

/-! ## The fill loops -/

theorem readCell_eq_cellAt {N : Int} {g : Grid} {r c : Int} (hg : Square N g)
    (h : InGrid N r c) : readCell g r c = cellAt g r.toNat c.toNat := by
  obtain ⟨row, v, hrow, hv, hread⟩ := readCell_of_inGrid hg h
  rw [hread, cellAt, (idx?_eq_some hrow).2.2, Option.some_bind, (idx?_eq_some hv).2.2]

theorem cellAt_set {g : Grid} {r c : Nat} {row : List Cell} (hrow : g[r]? = some row)
    (hc : c < row.length) (v : Cell) (r' c' : Nat) :
    cellAt (g.set r (row.set c v)) r' c' =
      if r' = r ∧ c' = c then some v else cellAt g r' c' := by
  have hr : r < g.length := (List.getElem?_eq_some_iff.mp hrow).1
  unfold cellAt
  by_cases hrr : r' = r
  · subst hrr
    rw [List.getElem?_set_self hr, hrow, Option.some_bind, Option.some_bind]
    by_cases hcc : c' = c
    · subst hcc
      rw [List.getElem?_set_self hc, if_pos ⟨rfl, rfl⟩]
    · rw [List.getElem?_set_ne (Ne.symm hcc), if_neg (fun h => hcc h.2)]
  · rw [List.getElem?_set_ne (Ne.symm hrr), if_neg (fun h => hrr h.1)]

/-- One step of the fill loops on a row of the grid: it does not throw, an
empty cell receives a filler, any other cell and every other position stay as
they were. -/
theorem fillAt_spec {N : Int} (rnd : Rand) {g : Grid} (k : Nat) {r : Nat} (c : Nat)
    (hg : Square N g) (hr : r < N.toNat) :
    ∃ g1 k1, fillAt rnd (g, k) (r, c) = some (g1, k1) ∧ Square N g1 ∧
    ∀ r' c', cellAt g1 r' c' =
      if (r' = r ∧ c' = c) ∧ cellAt g r c = some Cell.empty then some (fillerCell rnd k)
      else cellAt g r' c' := by
  have hlen : r < g.length := by rw [hg.1]; exact hr
  have hrow : g[r]? = some g[r] := List.getElem?_eq_getElem hlen
  have hcell : cellAt g r c = g[r][c]? := by rw [cellAt, hrow, Option.some_bind]
  unfold fillAt
  simp only [hrow]
  by_cases he : g[r][c]? = some Cell.empty
  · rw [if_pos he]
    have hc : c < g[r].length := (List.getElem?_eq_some_iff.mp he).1
    refine ⟨_, _, rfl, ⟨by simp [hg.1], ?_⟩, ?_⟩
    · intro row' hrow'
      rcases List.mem_or_eq_of_mem_set hrow' with h1 | h1
      · exact hg.2 _ h1
      · rw [h1, List.length_set]
        exact hg.2 _ (List.getElem_mem _)
    · intro r' c'
      simp only [cellAt_set hrow hc, hcell, he, and_true]
  · rw [if_neg he]
    exact ⟨g, k, rfl, hg, fun r' c' => by simp only [hcell, he, and_false, if_false]⟩

theorem fillerCell_ne_empty (rnd : Rand) (k : Nat) : fillerCell rnd k ≠ Cell.empty := by
  unfold fillerCell
  split <;> simp

/-- With a draw in `[0, 1)` the filler is a letter of the alphabet. -/
theorem fillerCell_letter {rnd : Rand} (hv : ValidRand rnd) (k : Nat) :
    ∃ u, u ∈ alphabet ∧ fillerCell rnd k = Cell.unit u := by
  have hlt : (floorMul (rnd k) 26).toNat < alphabet.length := by
    have := floorMul_lt (hv k) (n := 26) (by norm_num)
    have := floorMul_nonneg (hv k).2.1 (n := 26) (by norm_num)
    simp only [alphabet, List.length_cons, List.length_nil]
    omega
  obtain ⟨u, hu, hmem⟩ := idx?_of_lt (floorMul_nonneg (hv k).2.1 (by norm_num)) hlt
  exact ⟨u, hmem, by unfold fillerCell; simp only [hu]⟩

theorem fillLoop_cons (rnd : Rand) (rc : Nat × Nat) (rest : List (Nat × Nat)) (s : Grid × Nat) :
    fillLoop rnd (rc :: rest) s =
      match fillAt rnd s rc with
      | none => none
      | some s' => fillLoop rnd rest s' := rfl

/-- The fill loops over a list of positions on rows of the grid: they do not
throw, a cell that was not empty stays as it was, an empty cell at one of the
positions holds a filler afterwards. -/
theorem fillLoop_spec {N : Int} (rnd : Rand) (ps : List (Nat × Nat)) {g : Grid} (k : Nat)
    (hg : Square N g) (hps : ∀ p ∈ ps, p.1 < N.toNat) :
    ∃ g' k', fillLoop rnd ps (g, k) = some (g', k') ∧ Square N g' ∧
    ∀ r c, (cellAt g r c ≠ some Cell.empty → cellAt g' r c = cellAt g r c) ∧
      (cellAt g r c = some Cell.empty → (r, c) ∈ ps →
        ∃ j, cellAt g' r c = some (fillerCell rnd j)) := by
  induction ps generalizing g k with
  | nil =>
    refine ⟨g, k, rfl, hg, fun r c => ⟨fun _ => rfl, fun _ h => ?_⟩⟩
    cases h
  | cons p ps ih =>
    obtain ⟨pr, pc⟩ := p
    obtain ⟨g1, k1, hfill, hsq1, hstep⟩ :=
      fillAt_spec rnd k pc hg (hps (pr, pc) (List.mem_cons_self _ _))
    obtain ⟨g', k', hloop, hsq', hrest⟩ :=
      ih k1 hsq1 (fun p hp => hps p (List.mem_cons_of_mem _ hp))
    refine ⟨g', k', by rw [fillLoop_cons]; simp only [hfill, hloop], hsq', fun r c => ⟨?_, ?_⟩⟩
    · intro hne
      have h1 : cellAt g1 r c = cellAt g r c := by
        rw [hstep, if_neg]
        rintro ⟨⟨e1, e2⟩, he⟩
        rw [e1, e2] at hne
        exact hne he
      rw [(hrest r c).1 (by rw [h1]; exact hne), h1]
    · intro he hmem
      by_cases hp : r = pr ∧ c = pc
      · have h1 : cellAt g1 r c = some (fillerCell rnd k) := by
          rw [hstep, if_pos ⟨hp, by rw [← hp.1, ← hp.2]; exact he⟩]
        refine ⟨k, ?_⟩
        rw [(hrest r c).1 (by rw [h1]; simpa using fillerCell_ne_empty rnd k), h1]
      · have h1 : cellAt g1 r c = some Cell.empty := by
          rw [hstep, if_neg (fun h => hp h.1), he]
        have hmem' : (r, c) ∈ ps := by
          rcases List.mem_cons.mp hmem with h | h
          · exact absurd ⟨congrArg Prod.fst h, congrArg Prod.snd h⟩ hp
          · exact h
        exact (hrest r c).2 h1 hmem'

theorem mem_cellOrder {N : Int} {r c : Nat} :
    (r, c) ∈ cellOrder N ↔ r < N.toNat ∧ c < N.toNat := by
  unfold cellOrder
  simp only [List.mem_flatMap, List.mem_range, List.mem_map, Prod.mk.injEq]
  constructor
  · rintro ⟨a, ha, b, hb, e1, e2⟩
    exact ⟨e1 ▸ ha, e2 ▸ hb⟩
  · rintro ⟨h1, h2⟩
    exact ⟨r, h1, c, h2, rfl, rfl⟩

/-- The fill loops do not throw; the display grid is square, equal to the
solution grid where that one is not empty, and holds a filler elsewhere. -/
theorem fillGrid_spec {N : Int} (rnd : Rand) {g : Grid} (k : Nat) (hg : Square N g) :
    ∃ pg k', fillGrid rnd N g k = some (pg, k') ∧ Square N pg ∧
    ∀ r c, InGrid N r c →
      (readCell g r c ≠ some Cell.empty → readCell pg r c = readCell g r c) ∧
      (readCell g r c = some Cell.empty → ∃ j, readCell pg r c = some (fillerCell rnd j)) := by
  obtain ⟨pg, k', hloop, hsq, hcells⟩ := fillLoop_spec rnd (cellOrder N) k hg
    (fun p hp => (mem_cellOrder.mp hp).1)
  refine ⟨pg, k', hloop, hsq, fun r c hin => ?_⟩
  rw [readCell_eq_cellAt hg hin, readCell_eq_cellAt hsq hin]
  refine ⟨(hcells _ _).1, fun he => (hcells _ _).2 he ?_⟩
  rw [mem_cellOrder]
  obtain ⟨a1, a2, a3, a4⟩ := hin
  omega

/-! ## The whole call -/

theorem allocGrid_of_lt {N : Int} (h : N < 4294967296) : allocGrid N = some (emptyGrid N) := by
  unfold allocGrid
  rw [if_neg (by omega)]

/-- A grid size of `2^32` or more: the allocation of the grid throws. -/
theorem generateWordSearch_of_le {N : Int} (h : 4294967296 ≤ N) (rnd : Rand)
    (words : List Word) : generateWordSearch rnd words N = none := by
  unfold generateWordSearch allocGrid
  rw [if_pos h]

theorem generateWordSearch_eq_some {rnd : Rand} {words : List Word} {N : Int}
    {res : PuzzleResult} (h : generateWordSearch rnd words N = some res) :
    ∃ s k, placeAll rnd N ⟨emptyGrid N, [], 0⟩ (wordsToPlace words) = some s ∧
      fillGrid rnd N s.grid s.draws = some (res.puzzleGrid, k) ∧
      res.placedWords = sortWords s.placedWords ∧ res.solutionGrid = s.grid := by
  have hlt : N < 4294967296 := by
    by_contra hge
    rw [generateWordSearch_of_le (by omega)] at h
    cases h
  unfold generateWordSearch at h
  rw [allocGrid_of_lt hlt] at h
  simp only at h
  split at h
  · cases h
  · rename_i s hs
    split at h
    · cases h
    · rename_i pg k hf
      cases h
      exact ⟨s, k, hs, hf, rfl, rfl⟩

theorem generateWordSearch_of_parts {rnd : Rand} {words : List Word} {N : Int}
    {s : PlaceState} {pg : Grid} {k : Nat} (hlt : N < 4294967296)
    (hs : placeAll rnd N ⟨emptyGrid N, [], 0⟩ (wordsToPlace words) = some s)
    (hf : fillGrid rnd N s.grid s.draws = some (pg, k)) :
    generateWordSearch rnd words N = some ⟨sortWords s.placedWords, pg, s.grid⟩ := by
  unfold generateWordSearch
  rw [allocGrid_of_lt hlt]
  simp only [hs, hf]

theorem placeAll_square {rnd : Rand} {N : Int} {ws : List Word} {s s' : PlaceState}
    (hg : Square N s.grid) (h : placeAll rnd N s ws = some s') : Square N s'.grid := by
  induction ws generalizing s with
  | nil =>
    simp only [placeAll, Option.some.injEq] at h
    rw [← h]; exact hg
  | cons word rest ih =>
    rw [placeAll_cons] at h
    split at h
    · cases h
    · rename_i s1 h1
      obtain ⟨placed, hloop, _⟩ := placeWord_eq_some h1
      exact ih (placeLoop_square hg hloop) h

/-- With draws in `[0, 1)` and a grid size of at least one and below `2^32` the
call returns. -/
theorem generateWordSearch_isSome {rnd : Rand} (hv : ValidRand rnd) {N : Int} (hN : 1 ≤ N)
    (hlt : N < 4294967296) (words : List Word) :
    ∃ res, generateWordSearch rnd words N = some res := by
  obtain ⟨s, hs⟩ := placeAll_isSome hv hN (wordsToPlace words)
    (s := ⟨emptyGrid N, [], 0⟩) (square_emptyGrid N)
  obtain ⟨pg, k, hf, _⟩ := fillGrid_spec rnd s.draws (placeAll_square (square_emptyGrid N) hs)
  exact ⟨_, generateWordSearch_of_parts hlt hs hf⟩

/-! ## The two sorts -/

/-- The order `strLt` is the lexicographic order of the code units. -/
theorem strLt_iff_lex (a b : Word) : strLt a b = true ↔ List.Lex (· < ·) a b := by
  induction a generalizing b with
  | nil =>
    cases b with
    | nil => simp [strLt, List.Lex.not_nil_right]
    | cons y ys => simp [strLt, List.Lex.nil]
  | cons x xs ih =>
    cases b with
    | nil => simp [strLt, List.Lex.not_nil_right]
    | cons y ys =>
      unfold strLt
      by_cases h1 : x < y
      · simp only [if_pos h1, true_iff]
        exact List.Lex.rel h1
      · by_cases h2 : y < x
        · simp only [if_neg h1, if_pos h2, Bool.false_eq_true, false_iff]
          intro h
          cases h with
          | cons h => exact absurd h2 (lt_irrefl _)
          | rel h => exact h1 h
        · have e : x = y := Nat.le_antisymm (Nat.not_lt.mp h2) (Nat.not_lt.mp h1)
          subst e
          simp only [if_neg h1, ih]
          exact List.Lex.cons_iff.symm

theorem strLe_iff (a b : Word) : strLe a b ↔ ¬ List.Lex (· < ·) b a := by
  unfold strLe
  rw [← strLt_iff_lex]
  simp

theorem strLe_isTotal : IsTotal Word strLe where
  total a b := by
    rw [strLe_iff, strLe_iff]
    by_contra h
    push_neg at h
    exact asymm h.1 h.2

theorem strLe_isTrans : IsTrans Word strLe where
  trans a b c hab hbc := by
    rw [strLe_iff] at hab hbc ⊢
    intro hca
    rcases @IsOrderConnected.conn _ (List.Lex (· < ·)) _ c b a hca with h | h
    · exact hbc h
    · exact hab h

theorem lengthDesc_isTotal : IsTotal Word lengthDesc where
  total a b := by unfold lengthDesc; omega

theorem lengthDesc_isTrans : IsTrans Word lengthDesc where
  trans a b c hab hbc := by unfold lengthDesc at *; omega

theorem sorted_sortWords (l : List Word) : List.Sorted strLe (sortWords l) :=
  @List.sorted_insertionSort Word strLe _ strLe_isTotal strLe_isTrans l

theorem sorted_wordsToPlace (l : List Word) : List.Sorted lengthDesc (wordsToPlace l) :=
  @List.sorted_insertionSort Word lengthDesc _ lengthDesc_isTotal lengthDesc_isTrans l

/-- Inserting a word keeps, for every length, the words of that length in
the order they had. -/
theorem filter_orderedInsert_length (n : Nat) (a : Word) (l : List Word) :
    (List.orderedInsert lengthDesc a l).filter (fun w => decide (w.length = n)) =
      (a :: l).filter (fun w => decide (w.length = n)) := by
  induction l with
  | nil => simp
  | cons b l ih =>
    rw [List.orderedInsert]
    split
    · rfl
    · rename_i hab
      unfold lengthDesc at hab
      rw [List.filter_cons, ih]
      by_cases hb : b.length = n
      · have ha : ¬ a.length = n := by omega
        simp [List.filter_cons, hb, ha]
      · simp [List.filter_cons, hb]

/-- The sort by length is stable: for every length, the words of that length
stand in the order of the input. -/
theorem filter_wordsToPlace (n : Nat) (words : List Word) :
    (wordsToPlace words).filter (fun w => decide (w.length = n)) =
      words.filter (fun w => decide (w.length = n)) := by
  unfold wordsToPlace
  induction words with
  | nil => rfl
  | cons a l ih =>
    rw [List.insertionSort, filter_orderedInsert_length, List.filter_cons, List.filter_cons, ih]

/-! ## Facts about the returned object -/

theorem mem_sortWords {w : Word} {l : List Word} : w ∈ sortWords l ↔ w ∈ l :=
  List.mem_insertionSort strLe

theorem mem_wordsToPlace {w : Word} {l : List Word} : w ∈ wordsToPlace l ↔ w ∈ l :=
  List.mem_insertionSort lengthDesc

/-- What holds of every returned object, whatever the draws were. -/
theorem generateWordSearch_inv {rnd : Rand} {words : List Word} {N : Int} (hN : 1 ≤ N)
    {res : PuzzleResult} (h : generateWordSearch rnd words N = some res) :
    Square N res.solutionGrid ∧ (∀ w ∈ res.placedWords, Readable N res.solutionGrid w) ∧
      (∀ r c, InGrid N r c → CoveredCell N res.solutionGrid res.placedWords r c) := by
  obtain ⟨s, k, hs, _, hwords, hgrid⟩ := generateWordSearch_eq_some h
  obtain ⟨hsq, hread, hcov⟩ := placeAll_inv hN (placeInv_init N) hs
  rw [hwords, hgrid]
  refine ⟨hsq, fun w hw => hread w (mem_sortWords.mp hw), fun r c hrc => ?_⟩
  rcases hcov r c hrc with he | ⟨w, hw, rest⟩
  · exact Or.inl he
  · exact Or.inr ⟨w, mem_sortWords.mpr hw, rest⟩

/-- The returned words are, up to order, a sublist of the words attempted. -/
theorem placedWords_subperm {rnd : Rand} {words : List Word} {N : Int} {res : PuzzleResult}
    (h : generateWordSearch rnd words N = some res) : List.Subperm res.placedWords words := by
  obtain ⟨s, k, hs, _, hwords, _⟩ := generateWordSearch_eq_some h
  obtain ⟨l, hl, hpl⟩ := placeAll_sublist hs
  rw [List.nil_append] at hpl
  rw [hwords, hpl]
  exact ((List.perm_insertionSort strLe l).subperm.trans hl.subperm).trans
    (List.perm_insertionSort lengthDesc words).subperm

/-- The display grid of every returned object. -/
theorem generateWordSearch_puzzle {rnd : Rand} {words : List Word} {N : Int} (hN : 1 ≤ N)
    {res : PuzzleResult} (h : generateWordSearch rnd words N = some res) :
    Square N res.puzzleGrid ∧
    ∀ r c, InGrid N r c →
      (readCell res.solutionGrid r c ≠ some Cell.empty →
        readCell res.puzzleGrid r c = readCell res.solutionGrid r c) ∧
      (readCell res.solutionGrid r c = some Cell.empty →
        ∃ j, readCell res.puzzleGrid r c = some (fillerCell rnd j)) := by
  obtain ⟨s, k, hs, hf, _, hgrid⟩ := generateWordSearch_eq_some h
  have hsq := (placeAll_inv hN (placeInv_init N) hs).1
  obtain ⟨pg, k', hf', hsq', hcells⟩ := fillGrid_spec rnd s.draws hsq
  rw [hf] at hf'
  have e : res.puzzleGrid = pg := congrArg Prod.fst (Option.some.inj hf')
  rw [e, hgrid]
  exact ⟨hsq', hcells⟩

/-! ## Words longer than the grid -/

/-- The end cell of a walk longer than the grid, from a start cell inside the
grid, is outside the grid. -/
theorem endInBounds_long {N r0 c0 : Int} {d : Int × Int} {len : Nat} (hd : d ∈ DIRECTIONS)
    (hstart : InGrid N r0 c0) (hlen : N < (len : Int)) :
    endInBounds N (r0 + ((len : Int) - 1) * d.1) (c0 + ((len : Int) - 1) * d.2) = false := by
  rw [← Bool.not_eq_true, endInBounds_eq_true]
  rintro ⟨b1, b2, b3, b4⟩
  obtain ⟨h1, h2, h3⟩ := dir_vals hd
  obtain ⟨a1, a2, a3, a4⟩ := hstart
  rcases h1 with e1 | e1 | e1 <;> rcases h2 with e2 | e2 | e2 <;> rw [e1] at b1 b2 <;>
    rw [e2] at b3 b4 <;> omega

/-- With draws in `[0, 1)`, every trial of a word longer than the grid is
rejected by the bounds check, whatever the grid holds. -/
theorem trial_long {rnd : Rand} (hv : ValidRand rnd) {N : Int} (hN : 1 ≤ N) (g : Grid)
    {word : Word} (hlen : N < (word.length : Int)) (k : Nat) :
    trial rnd N g word k = some none := by
  obtain ⟨d, hd⟩ := direction_isSome (hv k)
  unfold trial
  simp only [hd, endInBounds_long (dir_of_idx? hd) (start_inGrid hv hN k) hlen,
    Bool.false_eq_true, if_false]

/-- The trial loop of a word longer than the grid leaves the grid alone. -/
theorem placeLoop_long {rnd : Rand} {N : Int} {word : Word} {g g' : Grid} {n k k' : Nat}
    {placed : Bool} (hg : Square N g) (hlen : N < (word.length : Int)) (hN : 1 ≤ N)
    (h : placeLoop rnd N word g n k = some (g', placed, k')) : placed = false ∧ g' = g := by
  rcases placeLoop_result h with hc | ⟨_, k0, ht⟩
  · exact hc
  · obtain ⟨d, hd, _, hreads, _⟩ := trial_commit_grid hg ht
    have hne : 0 < word.length := by omega
    have hstart := (hreads 0 hne).1
    simp only [Nat.cast_zero, zero_mul, add_zero] at hstart
    have := length_le_of_readable ⟨_, _, d, hstart, dir_of_idx? hd, hreads⟩
    omega

/-! ## A grid size that is not positive -/

theorem endInBounds_nonpos {N : Int} (hN : N ≤ 0) (r c : Int) : endInBounds N r c = false := by
  rw [← Bool.not_eq_true, endInBounds_eq_true]
  rintro ⟨h1, h2, _, _⟩
  omega

/-- With a grid size that is not positive every trial is rejected by the
bounds check. -/
theorem trial_nonpos {rnd : Rand} (hv : ValidRand rnd) {N : Int} (hN : N ≤ 0) (g : Grid)
    (word : Word) (k : Nat) : trial rnd N g word k = some none := by
  obtain ⟨d, hd⟩ := direction_isSome (hv k)
  unfold trial
  simp only [hd, endInBounds_nonpos hN, Bool.false_eq_true, if_false]

theorem placeLoop_nonpos {rnd : Rand} (hv : ValidRand rnd) {N : Int} (hN : N ≤ 0) (g : Grid)
    (word : Word) (n k : Nat) : placeLoop rnd N word g n k = some (g, false, k + 3 * n) := by
  induction n generalizing k with
  | zero => rfl
  | succ n ih =>
    rw [placeLoop_succ, trial_nonpos hv hN]
    simp only [ih]
    congr 3
    omega

theorem placeAll_nonpos {rnd : Rand} (hv : ValidRand rnd) {N : Int} (hN : N ≤ 0)
    (ws : List Word) (s : PlaceState) :
    ∃ k, placeAll rnd N s ws = some ⟨s.grid, s.placedWords, k⟩ := by
  induction ws generalizing s with
  | nil => exact ⟨s.draws, rfl⟩
  | cons word rest ih =>
    have hw : placeWord rnd N s word = some ⟨s.grid, s.placedWords, s.draws + 3 * 150⟩ := by
      unfold placeWord
      simp only [placeLoop_nonpos hv hN, Bool.false_eq_true, if_false]
    rw [placeAll_cons]
    simp only [hw]
    exact ih _

theorem emptyGrid_nonpos {N : Int} (hN : N ≤ 0) : emptyGrid N = [] := by
  unfold emptyGrid
  rw [Int.toNat_of_nonpos hN]
  rfl

theorem cellOrder_nonpos {N : Int} (hN : N ≤ 0) : cellOrder N = [] := by
  unfold cellOrder
  rw [Int.toNat_of_nonpos hN]
  rfl

/-! ## The course of the trial loop -/

/-- With draws in `[0, 1)` the trial loop with `n` attempts either commits the
first legal trial, after `t < n` rejected ones, or rejects all `n` trials and
returns the grid it was given. -/
theorem placeLoop_cases {rnd : Rand} (hv : ValidRand rnd) {N : Int} (hN : 1 ≤ N) {g : Grid}
    (hg : Square N g) (word : Word) (n k : Nat) :
    (∃ t g', t < n ∧
      (∀ j, j < t → ¬ LegalTrial rnd N g word (k + 3 * j) ∧
        trial rnd N g word (k + 3 * j) = some none) ∧
      LegalTrial rnd N g word (k + 3 * t) ∧
      trial rnd N g word (k + 3 * t) = some (some g') ∧
      placeLoop rnd N word g n k = some (g', true, k + 3 * (t + 1))) ∨
    ((∀ j, j < n → ¬ LegalTrial rnd N g word (k + 3 * j) ∧
        trial rnd N g word (k + 3 * j) = some none) ∧
      placeLoop rnd N word g n k = some (g, false, k + 3 * n)) := by
  induction n generalizing k with
  | zero =>
    refine Or.inr ⟨fun j hj => absurd hj (by simp), rfl⟩
  | succ n ih =>
    rw [placeLoop_succ]
    rcases trial_total hv hN hg word k with ⟨hl, g', ht⟩ | ⟨hl, ht⟩
    · refine Or.inl ⟨0, g', Nat.succ_pos n, fun j hj => absurd hj (by simp), hl, ht, ?_⟩
      simp only [ht]
    · simp only [ht]
      have shift : ∀ j, k + 3 + 3 * j = k + 3 * (j + 1) := fun j => by omega
      rcases ih (k + 3) with ⟨t, g', htn, hrej, hleg, htr, hloop⟩ | ⟨hrej, hloop⟩
      · refine Or.inl ⟨t + 1, g', by omega, fun j hj => ?_, ?_, ?_, ?_⟩
        · cases j with
          | zero => exact ⟨hl, ht⟩
          | succ j =>
            have := hrej j (by omega)
            rw [shift] at this
            exact this
        · rw [shift] at hleg; exact hleg
        · rw [shift] at htr; exact htr
        · rw [hloop]
          congr 3
          omega
      · refine Or.inr ⟨fun j hj => ?_, ?_⟩
        · cases j with
          | zero => exact ⟨hl, ht⟩
          | succ j =>
            have := hrej j (by omega)
            rw [shift] at this
            exact this
        · rw [hloop]
          congr 3
          omega

/-! ## The copies, in memory -/

theorem deref_append_left {α : Type} {σ : Store α} (τ : Store α) {ref : Nat}
    (h : ref < σ.length) : deref (σ ++ τ) ref = deref σ ref := by
  unfold deref
  rw [List.getElem?_append_left h]

theorem deref_append_right {α : Type} (σ τ : Store α) (i : Nat) :
    deref (σ ++ τ) (σ.length + i) = deref τ i := by
  unfold deref
  rw [List.getElem?_append_right (Nat.le_add_right _ _), Nat.add_sub_cancel_left]

/-- The sorted copy holds the words in processing order, and no array that
was in memory before is changed. -/
theorem sortedCopy_spec (σ : Store Word) (words : Nat) :
    deref (sortedCopy σ words).1 (sortedCopy σ words).2 = wordsToPlace (deref σ words) ∧
    ∀ ref, ref < σ.length → deref (sortedCopy σ words).1 ref = deref σ ref := by
  have hfresh : deref (σ ++ [deref σ words]) σ.length = deref σ words := by
    have := deref_append_right σ [deref σ words] 0
    simp only [Nat.add_zero] at this
    rw [this]
    rfl
  constructor
  · show deref (List.set (σ ++ [deref σ words]) σ.length
      (List.insertionSort lengthDesc (deref (σ ++ [deref σ words]) σ.length))) σ.length = _
    rw [hfresh]
    unfold deref wordsToPlace
    rw [List.getElem?_set_self (by simp)]
    rfl
  · intro ref href
    show deref (List.set (σ ++ [deref σ words]) σ.length _) ref = _
    unfold deref
    rw [List.getElem?_set_ne (by omega), List.getElem?_append_left href]

theorem fillAt_length {rnd : Rand} {p p' : Grid} {k k' : Nat} {rc : Nat × Nat}
    (h : fillAt rnd (p, k) rc = some (p', k')) : p'.length = p.length := by
  unfold fillAt at h
  split at h
  · cases h
  · split at h
    · simp only [Option.some.injEq, Prod.mk.injEq] at h
      rw [← h.1, List.length_set]
    · simp only [Option.some.injEq, Prod.mk.injEq] at h
      rw [h.1]

theorem fillLoop_length {rnd : Rand} {ps : List (Nat × Nat)} {p p' : Grid} {k k' : Nat}
    (h : fillLoop rnd ps (p, k) = some (p', k')) : p'.length = p.length := by
  induction ps generalizing p k with
  | nil =>
    simp only [fillLoop, Option.some.injEq, Prod.mk.injEq] at h
    rw [h.1]
  | cons rc rest ih =>
    rw [fillLoop_cons] at h
    split at h
    · cases h
    · rename_i s1 h1
      obtain ⟨p1, k1⟩ := s1
      rw [ih h, fillAt_length h1]

/-- One step of the fill loops on the memory, the rows of the display grid
being the arrays allocated last, is the step on the display grid alone. -/
theorem fillAtMem_append (rnd : Rand) (σ : Store Cell) (p : Grid) (k : Nat) (rc : Nat × Nat) :
    fillAtMem rnd ((List.range p.length).map fun i => σ.length + i) (σ ++ p, k) rc =
      (fillAt rnd (p, k) rc).map fun s => (σ ++ s.1, s.2) := by
  unfold fillAtMem fillAt
  by_cases hr : rc.1 < p.length
  · have h1 : ((List.range p.length).map fun i => σ.length + i)[rc.1]? =
        some (σ.length + rc.1) := by
      rw [List.getElem?_map, List.getElem?_range hr]
      rfl
    have h2 : (σ ++ p)[σ.length + rc.1]? = p[rc.1]? := by
      rw [List.getElem?_append_right (Nat.le_add_right _ _), Nat.add_sub_cancel_left]
    have h3 : p[rc.1]? = some p[rc.1] := List.getElem?_eq_getElem hr
    simp only [h1, h2, h3]
    split
    · simp only [Option.map_some']
      rw [List.set_append_right _ _ (Nat.le_add_right _ _), Nat.add_sub_cancel_left]
    · rfl
  · have h1 : ((List.range p.length).map fun i => σ.length + i)[rc.1]? = none := by
      rw [List.getElem?_eq_none]
      simp only [List.length_map, List.length_range]
      omega
    have h3 : p[rc.1]? = none := List.getElem?_eq_none (by omega)
    simp only [h1, h3, Option.map_none']

theorem fillLoopMem_cons (rnd : Rand) (pz : List Nat) (rc : Nat × Nat)
    (rest : List (Nat × Nat)) (s : Store Cell × Nat) :
    fillLoopMem rnd pz (rc :: rest) s =
      match fillAtMem rnd pz s rc with
      | none => none
      | some s' => fillLoopMem rnd pz rest s' := rfl

/-- The fill loops on the memory, the rows of the display grid being the arrays
allocated last, are the fill loops on the display grid alone. -/
theorem fillLoopMem_append (rnd : Rand) (σ : Store Cell) (ps : List (Nat × Nat)) (p : Grid)
    (k : Nat) :
    fillLoopMem rnd ((List.range p.length).map fun i => σ.length + i) ps (σ ++ p, k) =
      (fillLoop rnd ps (p, k)).map fun s => (σ ++ s.1, s.2) := by
  induction ps generalizing p k with
  | nil => rfl
  | cons rc rest ih =>
    rw [fillLoopMem_cons, fillLoop_cons, fillAtMem_append]
    cases h : fillAt rnd (p, k) rc with
    | none => rfl
    | some s1 =>
      obtain ⟨p1, k1⟩ := s1
      have hlen := fillAt_length h
      simp only [Option.map_some']
      rw [← hlen]
      exact ih p1 k1

theorem derefGrid_length (σ : Store Cell) (refs : List Nat) :
    (derefGrid σ refs).length = refs.length := by
  unfold derefGrid
  rw [List.length_map]

/-- The deep copy and the fill loops on the memory compute the display grid
that the fill loops compute on the value of the solution grid. -/
theorem copyAndFill_eq (rnd : Rand) (N : Int) (σ : Store Cell) (sol : List Nat) (k : Nat) :
    copyAndFill rnd N σ sol k =
      (fillGrid rnd N (derefGrid σ sol) k).map fun s =>
        (σ ++ s.1, (List.range sol.length).map (fun i => σ.length + i), s.2) := by
  unfold copyAndFill deepCopy fillGrid
  have h := fillLoopMem_append rnd σ (cellOrder N) (derefGrid σ sol) k
  rw [derefGrid_length] at h
  simp only [h]
  cases fillLoop rnd (cellOrder N) (derefGrid σ sol, k) with
  | none => rfl
  | some s => rfl

theorem derefGrid_append_left {σ : Store Cell} (τ : Store Cell) {refs : List Nat}
    (h : ∀ ref ∈ refs, ref < σ.length) : derefGrid (σ ++ τ) refs = derefGrid σ refs := by
  unfold derefGrid
  exact List.map_congr_left fun ref href => deref_append_left τ (h ref href)

theorem derefGrid_fresh (σ : Store Cell) (p : Grid) :
    derefGrid (σ ++ p) ((List.range p.length).map fun i => σ.length + i) = p := by
  unfold derefGrid
  apply List.ext_getElem?
  intro i
  rw [List.map_map, List.getElem?_map]
  by_cases hi : i < p.length
  · rw [List.getElem?_range hi, List.getElem?_eq_getElem hi]
    simp only [Option.map_some', Function.comp_apply, deref_append_right]
    unfold deref
    rw [List.getElem?_eq_getElem hi]
    rfl
  · rw [List.getElem?_eq_none (by simpa using hi), List.getElem?_eq_none (by omega)]
    rfl

/-- After the deep copy and the fill loops on the memory, every array that was
in memory before is unchanged, and so is the solution grid; the display grid
is the one computed on the value of the solution grid. -/
theorem copyAndFill_spec {rnd : Rand} {N : Int} {σ : Store Cell} {sol : List Nat} {k k' : Nat}
    {pg : Grid} (hsol : ∀ ref ∈ sol, ref < σ.length)
    (hf : fillGrid rnd N (derefGrid σ sol) k = some (pg, k')) :
    ∃ σ' pz, copyAndFill rnd N σ sol k = some (σ', pz, k') ∧
      (∀ ref, ref < σ.length → deref σ' ref = deref σ ref) ∧
      derefGrid σ' sol = derefGrid σ sol ∧ derefGrid σ' pz = pg := by
  have hlen : pg.length = sol.length := by
    unfold fillGrid at hf
    rw [fillLoop_length hf, derefGrid_length]
  refine ⟨σ ++ pg, (List.range sol.length).map (fun i => σ.length + i), ?_,
    fun ref href => deref_append_left pg href, derefGrid_append_left pg hsol, ?_⟩
  · rw [copyAndFill_eq, hf]
    rfl
  · rw [← hlen]
    exact derefGrid_fresh σ pg

/-! ## The claims -/

/-- Claim C1: for a grid size `N ≥ 1`, any word list and draws that are doubles
in `[0, 1)`, every placed word of a returned result can be read off the
returned solution grid: from a start cell inside the grid, in one of the eight
directions, every cell of the walk is inside the grid and holds the word's
character at that index.  The call does return when `N` is below `2^32`. -/
theorem placedWords_readable (rnd : Rand) (words : List Word) (N : Int)
    (hv : ValidRand rnd) (hN : 1 ≤ N) :
    (∀ res, generateWordSearch rnd words N = some res →
      ∀ w ∈ res.placedWords, ∃ r0 c0 d,
        (0 ≤ r0 ∧ r0 < N ∧ 0 ≤ c0 ∧ c0 < N) ∧ d ∈ DIRECTIONS ∧
        ∀ i (h : i < w.length),
          InGrid N (r0 + (i : Int) * d.1) (c0 + (i : Int) * d.2) ∧
          readCell res.solutionGrid (r0 + (i : Int) * d.1) (c0 + (i : Int) * d.2)
            = some (Cell.unit (w.get ⟨i, h⟩))) ∧
    (N < 4294967296 → ∃ res, generateWordSearch rnd words N = some res) :=
  ⟨fun _ hres => (generateWordSearch_inv hN hres).2.1,
    fun hlt => generateWordSearch_isSome hv hN hlt words⟩

theorem placedWords_readable_witness :
    ∃ res, generateWordSearch (fun _ => 0) [CAT, DOG] 3 = some res ∧
      ∀ w ∈ res.placedWords, ∃ r0 c0 d,
        (0 ≤ r0 ∧ r0 < 3 ∧ 0 ≤ c0 ∧ c0 < 3) ∧ d ∈ DIRECTIONS ∧
        ∀ i (h : i < w.length),
          InGrid 3 (r0 + (i : Int) * d.1) (c0 + (i : Int) * d.2) ∧
          readCell res.solutionGrid (r0 + (i : Int) * d.1) (c0 + (i : Int) * d.2)
            = some (Cell.unit (w.get ⟨i, h⟩)) :=
  ((placedWords_readable (fun _ => 0) [CAT, DOG] 3 validRand_zero (by decide)).2
      (by decide)).elim
    fun res hres => ⟨res, hres,
      (placedWords_readable (fun _ => 0) [CAT, DOG] 3 validRand_zero (by decide)).1 res hres⟩

/-- Claim C2: a word longer than the grid is never placed.  For a grid size
`N ≥ 1`: whatever the draws, no word of a returned `placedWords` is longer
than `N`, and with draws that are doubles in `[0, 1)` and `N` below `2^32`
the call returns; from every start cell
inside the grid and in each of the eight directions the end cell of a walk
longer than `N` is outside the grid, so that with draws in `[0, 1)` each trial
of such a word is rejected by the bounds check; and for the single word
`SUPERCALIFRAGILISTIC` with `gridSize = 5` the call returns no placed word and
the solution grid with all cells empty. -/
theorem long_word_never_placed :
    (∀ (rnd : Rand) (words : List Word) (N : Int), 1 ≤ N →
      (∀ res, generateWordSearch rnd words N = some res →
        ∀ w ∈ res.placedWords, ¬ N < (w.length : Int)) ∧
      (ValidRand rnd → N < 4294967296 →
        ∃ res, generateWordSearch rnd words N = some res)) ∧
    (∀ (N r0 c0 : Int) (d : Int × Int) (len : Nat), d ∈ DIRECTIONS → InGrid N r0 c0 →
      N < (len : Int) →
      endInBounds N (r0 + ((len : Int) - 1) * d.1) (c0 + ((len : Int) - 1) * d.2) = false) ∧
    (∀ (rnd : Rand) (N : Int) (g : Grid) (word : Word) (k : Nat), ValidRand rnd → 1 ≤ N →
      N < (word.length : Int) → trial rnd N g word k = some none) ∧
    (∀ rnd : Rand, ValidRand rnd → ∃ pg,
      generateWordSearch rnd [SUPERCALIFRAGILISTIC] 5 = some ⟨[], pg, emptyGrid 5⟩) := by
  refine ⟨fun rnd words N hN => ⟨fun res hres w hw => ?_, fun hv hlt =>
      generateWordSearch_isSome hv hN hlt words⟩,
    fun N r0 c0 d len hd hstart hlen => endInBounds_long hd hstart hlen,
    fun rnd N g word k hv hN hlen => trial_long hv hN g hlen k, fun rnd hv => ?_⟩
  · have := length_le_of_readable ((generateWordSearch_inv hN hres).2.1 w hw)
    omega
  · obtain ⟨res, hres⟩ := generateWordSearch_isSome hv (N := 5) (by norm_num) (by norm_num)
      [SUPERCALIFRAGILISTIC]
    obtain ⟨s, k, hs, hf, hwords, hgrid⟩ := generateWordSearch_eq_some hres
    have hw : wordsToPlace [SUPERCALIFRAGILISTIC] = [SUPERCALIFRAGILISTIC] := rfl
    rw [hw, placeAll_cons] at hs
    split at hs
    · cases hs
    · rename_i s1 h1
      simp only [placeAll, Option.some.injEq] at hs
      subst hs
      obtain ⟨placed, hloop, hpl⟩ := placeWord_eq_some h1
      obtain ⟨hp, hg⟩ := placeLoop_long (square_emptyGrid 5)
        (by simp [SUPERCALIFRAGILISTIC]) (by norm_num) hloop
      rw [hp] at hpl
      simp only [Bool.false_eq_true, if_false] at hpl
      refine ⟨res.puzzleGrid, ?_⟩
      rw [hres]
      congr 1
      cases res
      simp only at hwords hgrid
      rw [hwords, hgrid, hpl, hg]
      rfl

theorem long_word_never_placed_witness :
    ∀ w ∈ [[68]], ¬ (2 : Int) < ((w : Word).length : Int) :=
  (long_word_never_placed.1 (fun _ => 0) [[68], [65, 66, 67]] 2 (by decide)).1
    ⟨[[68]], [[Cell.unit 68, Cell.unit 65], [Cell.unit 65, Cell.unit 65]],
      [[Cell.unit 68, Cell.empty], [Cell.empty, Cell.empty]]⟩ (by decide)

/-- Claim C3: the returned `placedWords` is sorted in ascending lexicographic
order of the code units (no word is lexicographically greater than a later
one) and is a sub-multiset of the input words: every returned word occurs in
the input, and `placedWords` is, up to order, a sublist of the input, so that
no word occurs in it more often than in the input. -/
theorem placedWords_sorted_subperm (rnd : Rand) (words : List Word) (N : Int)
    (res : PuzzleResult) (h : generateWordSearch rnd words N = some res) :
    List.Sorted (fun a b => ¬ List.Lex (· < ·) b a) res.placedWords ∧
      (∀ w ∈ res.placedWords, w ∈ words) ∧
      List.Subperm res.placedWords words := by
  have hsub := placedWords_subperm h
  obtain ⟨s, k, _, _, hwords, _⟩ := generateWordSearch_eq_some h
  refine ⟨?_, fun w hw => hsub.subset hw, hsub⟩
  rw [hwords]
  exact (sorted_sortWords s.placedWords).imp (fun hab => (strLe_iff _ _).mp hab)

theorem placedWords_sorted_subperm_witness :
    List.Sorted (fun a b => ¬ List.Lex (· < ·) b a) [[67, 65, 84], [68, 79, 71]] ∧
      (∀ w ∈ [[67, 65, 84], [68, 79, 71]], w ∈ [[68, 79, 71], [67, 65, 84]]) ∧
      List.Subperm [[67, 65, 84], [68, 79, 71]] [[68, 79, 71], [67, 65, 84]] :=
  placedWords_sorted_subperm (fun k => if k = 4 then mkRat 1 2 else 0)
    [[68, 79, 71], [67, 65, 84]] 3
    ⟨[[67, 65, 84], [68, 79, 71]],
     [[Cell.unit 68, Cell.unit 79, Cell.unit 71], [Cell.unit 67, Cell.unit 65, Cell.unit 84],
      [Cell.unit 65, Cell.unit 65, Cell.unit 65]],
     [[Cell.unit 68, Cell.unit 79, Cell.unit 71], [Cell.unit 67, Cell.unit 65, Cell.unit 84],
      [Cell.empty, Cell.empty, Cell.empty]]⟩ (by decide)

/-- Claim C4: for a grid size `N ≥ 1`, any word list and draws that are doubles
in `[0, 1)`, in every returned result both grids have `N` rows of `N` cells; at
every cell the display grid equals the solution grid where the solution grid
is not empty and holds a letter of `A`-`Z` where it is empty, so that no cell
of the display grid is empty; and filling the display grid leaves the solution
grid unchanged: the returned solution grid is the grid as the placement loop
left it, and when the deep copy and the fill loops run on the arrays in
memory, the rows of the solution grid (and every other array already in
memory) hold afterwards what they held before, the new rows being the
returned display grid.  The call does return when `N` is below `2^32`. -/
theorem puzzleGrid_fills_solutionGrid (rnd : Rand) (words : List Word) (N : Int)
    (hv : ValidRand rnd) (hN : 1 ≤ N) :
    (∀ res, generateWordSearch rnd words N = some res →
      (res.solutionGrid.length = N.toNat ∧ ∀ row ∈ res.solutionGrid, row.length = N.toNat) ∧
      (res.puzzleGrid.length = N.toNat ∧ ∀ row ∈ res.puzzleGrid, row.length = N.toNat) ∧
      (∀ r c, InGrid N r c →
        (readCell res.solutionGrid r c ≠ some Cell.empty →
          readCell res.puzzleGrid r c = readCell res.solutionGrid r c) ∧
        (readCell res.solutionGrid r c = some Cell.empty →
          ∃ u, u ∈ alphabet ∧ readCell res.puzzleGrid r c = some (Cell.unit u)) ∧
        readCell res.puzzleGrid r c ≠ some Cell.empty) ∧
      ∃ s, placeAll rnd N ⟨emptyGrid N, [], 0⟩ (wordsToPlace words) = some s ∧
        res.solutionGrid = s.grid ∧
        ∀ (σ : Store Cell) (sol : List Nat), (∀ ref ∈ sol, ref < σ.length) →
          derefGrid σ sol = s.grid →
          ∃ σ' pz k', copyAndFill rnd N σ sol s.draws = some (σ', pz, k') ∧
            (∀ ref, ref < σ.length → deref σ' ref = deref σ ref) ∧
            derefGrid σ' sol = res.solutionGrid ∧ derefGrid σ' pz = res.puzzleGrid) ∧
    (N < 4294967296 → ∃ res, generateWordSearch rnd words N = some res) := by
  refine ⟨fun res hres => ?_, fun hlt => generateWordSearch_isSome hv hN hlt words⟩
  obtain ⟨hsq, hcells⟩ := generateWordSearch_puzzle hN hres
  obtain ⟨s, k, hs, hf, _, hgrid⟩ := generateWordSearch_eq_some hres
  refine ⟨(generateWordSearch_inv hN hres).1, hsq, fun r c hrc => ?_, s, hs, hgrid,
    fun σ sol hsol hσ => ?_⟩
  · obtain ⟨h1, h2⟩ := hcells r c hrc
    have h3 : readCell res.solutionGrid r c = some Cell.empty →
        ∃ u, u ∈ alphabet ∧ readCell res.puzzleGrid r c = some (Cell.unit u) := by
      intro he
      obtain ⟨j, hj⟩ := h2 he
      obtain ⟨u, hu, hfc⟩ := fillerCell_letter hv j
      exact ⟨u, hu, by rw [hj, hfc]⟩
    refine ⟨h1, h3, ?_⟩
    by_cases he : readCell res.solutionGrid r c = some Cell.empty
    · obtain ⟨u, _, hu⟩ := h3 he
      rw [hu]; simp
    · rw [h1 he]; exact he
  · rw [← hσ] at hf
    obtain ⟨σ', pz, hcopy, hold, hsolm, hpzm⟩ := copyAndFill_spec hsol hf
    exact ⟨σ', pz, k, hcopy, hold, by rw [hsolm, hσ, hgrid], hpzm⟩

theorem puzzleGrid_fills_solutionGrid_witness :
    ∃ res, generateWordSearch (fun _ => 0) [CAT, DOG] 3 = some res ∧
      (res.solutionGrid.length = (3 : Int).toNat ∧
        ∀ row ∈ res.solutionGrid, row.length = (3 : Int).toNat) ∧
      (res.puzzleGrid.length = (3 : Int).toNat ∧
        ∀ row ∈ res.puzzleGrid, row.length = (3 : Int).toNat) ∧
      (∀ r c, InGrid 3 r c →
        (readCell res.solutionGrid r c ≠ some Cell.empty →
          readCell res.puzzleGrid r c = readCell res.solutionGrid r c) ∧
        (readCell res.solutionGrid r c = some Cell.empty →
          ∃ u, u ∈ alphabet ∧ readCell res.puzzleGrid r c = some (Cell.unit u)) ∧
        readCell res.puzzleGrid r c ≠ some Cell.empty) ∧
      ∃ s, placeAll (fun _ => 0) 3 ⟨emptyGrid 3, [], 0⟩ (wordsToPlace [CAT, DOG]) = some s ∧
        res.solutionGrid = s.grid ∧
        ∀ (σ : Store Cell) (sol : List Nat), (∀ ref ∈ sol, ref < σ.length) →
          derefGrid σ sol = s.grid →
          ∃ σ' pz k', copyAndFill (fun _ => 0) 3 σ sol s.draws = some (σ', pz, k') ∧
            (∀ ref, ref < σ.length → deref σ' ref = deref σ ref) ∧
            derefGrid σ' sol = res.solutionGrid ∧ derefGrid σ' pz = res.puzzleGrid :=
  ((puzzleGrid_fills_solutionGrid (fun _ => 0) [CAT, DOG] 3 validRand_zero (by decide)).2
      (by decide)).elim
    fun res hres => ⟨res, hres,
      (puzzleGrid_fills_solutionGrid (fun _ => 0) [CAT, DOG] 3 validRand_zero
        (by decide)).1 res hres⟩

/-- Claim C5: for a grid size `N ≥ 1`, any word list and draws that are doubles
in `[0, 1)`, every cell of a returned solution grid is empty or a letter of a
placed word: a word of `placedWords` whose walk, from a start cell inside the
grid in one of the eight directions, stays inside the grid, reads the word in
the solution grid, and passes through the cell.  Hence, when every input word
consists of letters of `A`-`Z` only, every cell of the solution grid is empty
or such a letter and every cell of the display grid is such a letter.  The
call does return when `N` is below `2^32`. -/
theorem solutionGrid_cells_of_placedWords (rnd : Rand) (words : List Word) (N : Int)
    (hv : ValidRand rnd) (hN : 1 ≤ N) :
    (∀ res, generateWordSearch rnd words N = some res →
      (∀ r c, InGrid N r c →
        readCell res.solutionGrid r c = some Cell.empty ∨
        ∃ w ∈ res.placedWords, ∃ r0 c0 d, InGrid N r0 c0 ∧ d ∈ DIRECTIONS ∧
          ReadsAt N res.solutionGrid w r0 c0 d ∧
          ∃ i, ∃ h : i < w.length, r = r0 + (i : Int) * d.1 ∧ c = c0 + (i : Int) * d.2 ∧
            readCell res.solutionGrid r c = some (Cell.unit (w.get ⟨i, h⟩))) ∧
      ((∀ w ∈ words, ∀ u ∈ w, u ∈ alphabet) →
        ∀ r c, InGrid N r c →
          (readCell res.solutionGrid r c = some Cell.empty ∨
            ∃ u, u ∈ alphabet ∧ readCell res.solutionGrid r c = some (Cell.unit u)) ∧
          ∃ u, u ∈ alphabet ∧ readCell res.puzzleGrid r c = some (Cell.unit u))) ∧
    (N < 4294967296 → ∃ res, generateWordSearch rnd words N = some res) := by
  refine ⟨fun res hres => ?_, fun hlt => generateWordSearch_isSome hv hN hlt words⟩
  obtain ⟨_, _, hcov⟩ := generateWordSearch_inv hN hres
  refine ⟨hcov, fun hwords r c hrc => ?_⟩
  have hsol : readCell res.solutionGrid r c = some Cell.empty ∨
      ∃ u, u ∈ alphabet ∧ readCell res.solutionGrid r c = some (Cell.unit u) := by
    rcases hcov r c hrc with he | ⟨w, hw, _, _, _, _, _, _, i, hi, _, _, hcell⟩
    · exact Or.inl he
    · exact Or.inr ⟨_, hwords w ((placedWords_subperm hres).subset hw) _ (List.get_mem _ _ _),
        hcell⟩
  refine ⟨hsol, ?_⟩
  obtain ⟨h1, h2⟩ := (generateWordSearch_puzzle hN hres).2 r c hrc
  rcases hsol with he | ⟨u, hu, hcell⟩
  · obtain ⟨j, hj⟩ := h2 he
    obtain ⟨u, hu, hfc⟩ := fillerCell_letter hv j
    exact ⟨u, hu, by rw [hj, hfc]⟩
  · exact ⟨u, hu, by rw [h1 (by rw [hcell]; simp), hcell]⟩

theorem solutionGrid_cells_of_placedWords_witness :
    ∃ res, generateWordSearch (fun _ => 0) [CAT, DOG] 3 = some res ∧
      (∀ r c, InGrid 3 r c →
        readCell res.solutionGrid r c = some Cell.empty ∨
        ∃ w ∈ res.placedWords, ∃ r0 c0 d, InGrid 3 r0 c0 ∧ d ∈ DIRECTIONS ∧
          ReadsAt 3 res.solutionGrid w r0 c0 d ∧
          ∃ i, ∃ h : i < w.length, r = r0 + (i : Int) * d.1 ∧ c = c0 + (i : Int) * d.2 ∧
            readCell res.solutionGrid r c = some (Cell.unit (w.get ⟨i, h⟩))) ∧
      ((∀ w ∈ [CAT, DOG], ∀ u ∈ w, u ∈ alphabet) →
        ∀ r c, InGrid 3 r c →
          (readCell res.solutionGrid r c = some Cell.empty ∨
            ∃ u, u ∈ alphabet ∧ readCell res.solutionGrid r c = some (Cell.unit u)) ∧
          ∃ u, u ∈ alphabet ∧ readCell res.puzzleGrid r c = some (Cell.unit u)) :=
  ((solutionGrid_cells_of_placedWords (fun _ => 0) [CAT, DOG] 3 validRand_zero (by decide)).2
      (by decide)).elim
    fun res hres => ⟨res, hres,
      (solutionGrid_cells_of_placedWords (fun _ => 0) [CAT, DOG] 3 validRand_zero
        (by decide)).1 res hres⟩

/-- Claim C6 fails on the code: with `gridSize = 2^32`, a grid size of at least
one, and draws that are doubles in `[0, 1)`, the allocation of the grid throws
a `RangeError` and the call returns no result. -/
theorem generateWordSearch_throws_at_two_pow_32 :
    ValidRand (fun _ => 0) ∧ (1 : Int) ≤ 4294967296 ∧
      generateWordSearch (fun _ => 0) [CAT] 4294967296 = none :=
  ⟨validRand_zero, by decide, generateWordSearch_of_le (by decide) _ _⟩

/-- Claim C6, as the code behaves: the call never fails for legal inputs with
a grid size below `2^32`.  With draws that are doubles in `[0, 1)` and a grid
size `1 ≤ N < 2^32` the call returns a result for every word list, while for
`N ≥ 2^32` the allocation of the grid throws; for a double `x` in `[0, 1)`
every direction index `Math.floor(x * 8)` lies in `[0, 8)`, every filler
index `Math.floor(x * 26)` in `[0, 26)` and every start coordinate
`Math.floor(x * N)` in `[0, N)`, the product being rounded to a double before
the floor, so each of these lookups yields a value; every cell of a walk whose
start and end cells are inside the grid is inside the grid; every cell visited
by the fill loops is inside the grid; and for the empty word list with
`gridSize = 10` the call returns no placed word, the empty solution grid, and
a display grid of 10 rows of 10 cells that all hold a letter of `A`-`Z`. -/
theorem generateWordSearch_never_fails :
    (∀ (rnd : Rand) (words : List Word) (N : Int), ValidRand rnd → 1 ≤ N → N < 4294967296 →
      ∃ res, generateWordSearch rnd words N = some res) ∧
    (∀ (rnd : Rand) (words : List Word) (N : Int), 4294967296 ≤ N →
      generateWordSearch rnd words N = none) ∧
    (∀ x : ℚ, UnitDouble x →
      (0 ≤ floorMul x 8 ∧ floorMul x 8 < 8 ∧ ∃ d, idx? DIRECTIONS (floorMul x 8) = some d) ∧
      (0 ≤ floorMul x 26 ∧ floorMul x 26 < 26 ∧ ∃ u, idx? alphabet (floorMul x 26) = some u) ∧
      ∀ N : Int, 1 ≤ N → 0 ≤ floorMul x N ∧ floorMul x N < N) ∧
    (∀ (N r0 c0 : Int) (d : Int × Int) (len j : Nat), d ∈ DIRECTIONS → InGrid N r0 c0 →
      endInBounds N (r0 + ((len : Int) - 1) * d.1) (c0 + ((len : Int) - 1) * d.2) = true →
      j < len → InGrid N (r0 + (j : Int) * d.1) (c0 + (j : Int) * d.2)) ∧
    (∀ (N : Int) (r c : Nat), (r, c) ∈ cellOrder N → InGrid N (r : Int) (c : Int)) ∧
    (∀ rnd : Rand, ValidRand rnd → ∃ pg,
      generateWordSearch rnd [] 10 = some ⟨[], pg, emptyGrid 10⟩ ∧
      (pg.length = 10 ∧ ∀ row ∈ pg, row.length = 10) ∧
      ∀ r c, InGrid 10 r c → ∃ u, u ∈ alphabet ∧ readCell pg r c = some (Cell.unit u)) := by
  refine ⟨fun rnd words N hv hN hlt => generateWordSearch_isSome hv hN hlt words,
    fun rnd words N hge => generateWordSearch_of_le hge rnd words, fun x hx => ?_,
    fun N r0 c0 d len j hd hstart hend hj =>
      walk_inGrid hd hstart (endInBounds_eq_true.mp hend) hj,
    fun N r c h => ?_, fun rnd hv => ?_⟩
  · have h0 := hx.2.1
    refine ⟨⟨floorMul_nonneg h0 (by norm_num), floorMul_lt hx (by norm_num),
      direction_isSome hx⟩, ⟨floorMul_nonneg h0 (by norm_num), floorMul_lt hx (by norm_num),
      ?_⟩, fun N hN => ⟨floorMul_nonneg h0 (by omega), floorMul_lt hx (by omega)⟩⟩
    have hlt : (floorMul x 26).toNat < alphabet.length := by
      have := floorMul_lt hx (n := 26) (by norm_num)
      have := floorMul_nonneg h0 (n := 26) (by norm_num)
      simp only [alphabet, List.length_cons, List.length_nil]
      omega
    obtain ⟨u, hu, _⟩ := idx?_of_lt (floorMul_nonneg h0 (by norm_num)) hlt
    exact ⟨u, hu⟩
  · obtain ⟨h1, h2⟩ := mem_cellOrder.mp h
    unfold InGrid
    omega
  · obtain ⟨pg, k, hf, hsq, hcells⟩ := fillGrid_spec rnd 0 (square_emptyGrid 10)
    have hs : placeAll rnd 10 ⟨emptyGrid 10, [], 0⟩ (wordsToPlace []) =
        some ⟨emptyGrid 10, [], 0⟩ := rfl
    refine ⟨pg, generateWordSearch_of_parts (by norm_num) hs hf, hsq, fun r c hrc => ?_⟩
    obtain ⟨j, hj⟩ := (hcells r c hrc).2 (readCell_emptyGrid hrc)
    obtain ⟨u, hu, hfc⟩ := fillerCell_letter hv j
    exact ⟨u, hu, by rw [hj, hfc]⟩

theorem generateWordSearch_never_fails_witness :
    ∃ res, generateWordSearch (fun _ => 0) [CAT, SUPERCALIFRAGILISTIC, []] 4 = some res :=
  generateWordSearch_never_fails.1 (fun _ => 0) [CAT, SUPERCALIFRAGILISTIC, []] 4
    validRand_zero (by decide) (by decide)

/-- Claim C7 fails on the code: with `gridSize = 0` the call returns a result,
with no placed word and two grids without rows, instead of failing. -/
theorem generateWordSearch_zero_returns :
    generateWordSearch (fun _ => 0) [CAT] 0 = some ⟨[], [], []⟩ ∧
      generateWordSearch (fun _ => 0) [CAT] 0 ≠ none := by
  decide

/-- Claim C7, as the code behaves: with draws in `[0, 1)` and a grid size that
is not positive the call does not fail; it returns a result with no placed
word and two grids without rows. -/
theorem generateWordSearch_nonpos (rnd : Rand) (words : List Word) (N : Int)
    (hv : ValidRand rnd) (hN : N ≤ 0) :
    generateWordSearch rnd words N = some ⟨[], [], []⟩ := by
  obtain ⟨k, hs⟩ := placeAll_nonpos hv hN (wordsToPlace words) ⟨emptyGrid N, [], 0⟩
  have hf : fillGrid rnd N (emptyGrid N) k = some (emptyGrid N, k) := by
    unfold fillGrid
    rw [cellOrder_nonpos hN]
    rfl
  have := generateWordSearch_of_parts (by omega) hs hf
  rw [emptyGrid_nonpos hN] at this
  exact this

theorem generateWordSearch_nonpos_witness :
    generateWordSearch (fun _ => 0) [CAT, DOG] (-2) = some ⟨[], [], []⟩ :=
  generateWordSearch_nonpos (fun _ => 0) [CAT, DOG] (-2) validRand_zero (by decide)

theorem validRand_catDogRand : ValidRand catDogRand := by
  intro k
  unfold catDogRand
  split
  · refine ⟨⟨1, -2, by norm_num, by norm_num, by norm_num, ?_⟩, ?_, ?_⟩
    · rw [Rat.mkRat_eq_div, zpow_neg]; norm_num
    · rw [Rat.mkRat_eq_div]; norm_num
    · rw [Rat.mkRat_eq_div]; norm_num
  · exact unitDouble_zero

/-- Claim C8: for `words = ["CAT", "DOG"]` and `gridSize = 4`, with draws in
`[0, 1)` that make the first trial choose direction `E` (index 0) and start
`(0, 0)` and the second trial direction `E` and start `(1, 0)`: index 0 of
`DIRECTIONS` is `E = (0, 1)`, `CAT` is processed before `DOG`, each is placed
on its first trial, and the call returns `placedWords = ["CAT", "DOG"]`, a
solution grid with rows `C A T _` and `D O G _` and two empty rows, and a
display grid that agrees with it on the six letters and holds a filler, a
letter of `A`-`Z`, in every other cell. -/
theorem cat_dog_example (rnd : Rand) (hv : ValidRand rnd)
    (h0 : floorMul (rnd 0) 8 = 0) (h1 : floorMul (rnd 1) 4 = 0) (h2 : floorMul (rnd 2) 4 = 0)
    (h3 : floorMul (rnd 3) 8 = 0) (h4 : floorMul (rnd 4) 4 = 1) (h5 : floorMul (rnd 5) 4 = 0) :
    idx? DIRECTIONS 0 = some (0, 1) ∧
    wordsToPlace [CAT, DOG] = [CAT, DOG] ∧
    trial rnd 4 (emptyGrid 4) CAT 0 = some (some
      [[Cell.unit 67, Cell.unit 65, Cell.unit 84, Cell.empty],
       [Cell.empty, Cell.empty, Cell.empty, Cell.empty],
       [Cell.empty, Cell.empty, Cell.empty, Cell.empty],
       [Cell.empty, Cell.empty, Cell.empty, Cell.empty]]) ∧
    trial rnd 4
      [[Cell.unit 67, Cell.unit 65, Cell.unit 84, Cell.empty],
       [Cell.empty, Cell.empty, Cell.empty, Cell.empty],
       [Cell.empty, Cell.empty, Cell.empty, Cell.empty],
       [Cell.empty, Cell.empty, Cell.empty, Cell.empty]] DOG 3 = some (some
      [[Cell.unit 67, Cell.unit 65, Cell.unit 84, Cell.empty],
       [Cell.unit 68, Cell.unit 79, Cell.unit 71, Cell.empty],
       [Cell.empty, Cell.empty, Cell.empty, Cell.empty],
       [Cell.empty, Cell.empty, Cell.empty, Cell.empty]]) ∧
    generateWordSearch rnd [CAT, DOG] 4 = some
      ⟨[CAT, DOG],
       [[Cell.unit 67, Cell.unit 65, Cell.unit 84, fillerCell rnd 6],
        [Cell.unit 68, Cell.unit 79, Cell.unit 71, fillerCell rnd 7],
        [fillerCell rnd 8, fillerCell rnd 9, fillerCell rnd 10, fillerCell rnd 11],
        [fillerCell rnd 12, fillerCell rnd 13, fillerCell rnd 14, fillerCell rnd 15]],
       [[Cell.unit 67, Cell.unit 65, Cell.unit 84, Cell.empty],
        [Cell.unit 68, Cell.unit 79, Cell.unit 71, Cell.empty],
        [Cell.empty, Cell.empty, Cell.empty, Cell.empty],
        [Cell.empty, Cell.empty, Cell.empty, Cell.empty]]⟩ ∧
    ∀ k, ∃ u, u ∈ alphabet ∧ fillerCell rnd k = Cell.unit u := by
  have t1 : trial rnd 4 (emptyGrid 4) CAT 0 = some (some
      [[Cell.unit 67, Cell.unit 65, Cell.unit 84, Cell.empty],
       [Cell.empty, Cell.empty, Cell.empty, Cell.empty],
       [Cell.empty, Cell.empty, Cell.empty, Cell.empty],
       [Cell.empty, Cell.empty, Cell.empty, Cell.empty]]) := by
    unfold trial
    rw [h0, show (0 + 1 : Nat) = 1 from rfl, show (0 + 2 : Nat) = 2 from rfl, h1, h2]
    rfl
  have t2 : trial rnd 4
      [[Cell.unit 67, Cell.unit 65, Cell.unit 84, Cell.empty],
       [Cell.empty, Cell.empty, Cell.empty, Cell.empty],
       [Cell.empty, Cell.empty, Cell.empty, Cell.empty],
       [Cell.empty, Cell.empty, Cell.empty, Cell.empty]] DOG 3 = some (some
      [[Cell.unit 67, Cell.unit 65, Cell.unit 84, Cell.empty],
       [Cell.unit 68, Cell.unit 79, Cell.unit 71, Cell.empty],
       [Cell.empty, Cell.empty, Cell.empty, Cell.empty],
       [Cell.empty, Cell.empty, Cell.empty, Cell.empty]]) := by
    unfold trial
    rw [h3, show (3 + 1 : Nat) = 4 from rfl, show (3 + 2 : Nat) = 5 from rfl, h4, h5]
    rfl
  have hw : wordsToPlace [CAT, DOG] = [CAT, DOG] := by decide
  refine ⟨rfl, hw, t1, t2, ?_, fun k => fillerCell_letter hv k⟩
  have w1 : placeWord rnd 4 ⟨emptyGrid 4, [], 0⟩ CAT = some
      ⟨[[Cell.unit 67, Cell.unit 65, Cell.unit 84, Cell.empty],
        [Cell.empty, Cell.empty, Cell.empty, Cell.empty],
        [Cell.empty, Cell.empty, Cell.empty, Cell.empty],
        [Cell.empty, Cell.empty, Cell.empty, Cell.empty]], [CAT], 3⟩ := by
    unfold placeWord
    rw [show (150 : Nat) = 149 + 1 from rfl, placeLoop_succ]
    simp only [t1]
    rfl
  have w2 : placeWord rnd 4
      ⟨[[Cell.unit 67, Cell.unit 65, Cell.unit 84, Cell.empty],
        [Cell.empty, Cell.empty, Cell.empty, Cell.empty],
        [Cell.empty, Cell.empty, Cell.empty, Cell.empty],
        [Cell.empty, Cell.empty, Cell.empty, Cell.empty]], [CAT], 3⟩ DOG = some
      ⟨[[Cell.unit 67, Cell.unit 65, Cell.unit 84, Cell.empty],
        [Cell.unit 68, Cell.unit 79, Cell.unit 71, Cell.empty],
        [Cell.empty, Cell.empty, Cell.empty, Cell.empty],
        [Cell.empty, Cell.empty, Cell.empty, Cell.empty]], [CAT, DOG], 6⟩ := by
    unfold placeWord
    rw [show (150 : Nat) = 149 + 1 from rfl, placeLoop_succ]
    simp only [t2]
    rfl
  have hs : placeAll rnd 4 ⟨emptyGrid 4, [], 0⟩ (wordsToPlace [CAT, DOG]) = some
      ⟨[[Cell.unit 67, Cell.unit 65, Cell.unit 84, Cell.empty],
        [Cell.unit 68, Cell.unit 79, Cell.unit 71, Cell.empty],
        [Cell.empty, Cell.empty, Cell.empty, Cell.empty],
        [Cell.empty, Cell.empty, Cell.empty, Cell.empty]], [CAT, DOG], 6⟩ := by
    rw [hw, placeAll_cons]
    simp only [w1]
    rw [placeAll_cons]
    simp only [w2]
    rfl
  exact generateWordSearch_of_parts (by norm_num) hs rfl

theorem cat_dog_example_witness :
    generateWordSearch catDogRand [CAT, DOG] 4 = some
      ⟨[CAT, DOG],
       [[Cell.unit 67, Cell.unit 65, Cell.unit 84, fillerCell catDogRand 6],
        [Cell.unit 68, Cell.unit 79, Cell.unit 71, fillerCell catDogRand 7],
        [fillerCell catDogRand 8, fillerCell catDogRand 9, fillerCell catDogRand 10,
         fillerCell catDogRand 11],
        [fillerCell catDogRand 12, fillerCell catDogRand 13, fillerCell catDogRand 14,
         fillerCell catDogRand 15]],
       [[Cell.unit 67, Cell.unit 65, Cell.unit 84, Cell.empty],
        [Cell.unit 68, Cell.unit 79, Cell.unit 71, Cell.empty],
        [Cell.empty, Cell.empty, Cell.empty, Cell.empty],
        [Cell.empty, Cell.empty, Cell.empty, Cell.empty]]⟩ :=
  (cat_dog_example catDogRand validRand_catDogRand (by decide) (by decide) (by decide)
    (by decide) (by decide) (by decide)).2.2.2.2.1

/-- Claim C9: for every word the call runs at most 150 trials, each with three
draws (a direction and a start cell).  With draws in `[0, 1)`, a grid size
`N ≥ 1` and the grid `s.grid` of `N` rows of `N` cells, the body of the loop
over the words either commits the first legal trial (end cell in bounds, each
target cell empty or holding the needed character) after `t < 150` rejected
trials, leaves the word along that walk and every other cell as it was, adds
the word once at the end of `placedWords` and makes no further draw; or it
rejects all 150 trials and leaves the grid and `placedWords` as they were.
A rejected trial yields no grid. -/
theorem placeWord_trials (rnd : Rand) (N : Int) (s : PlaceState) (word : Word)
    (hv : ValidRand rnd) (hN : 1 ≤ N) (hg : Square N s.grid) :
    (∃ t g' d, t < 150 ∧
      (∀ j, j < t → ¬ LegalTrial rnd N s.grid word (s.draws + 3 * j) ∧
        trial rnd N s.grid word (s.draws + 3 * j) = some none) ∧
      LegalTrial rnd N s.grid word (s.draws + 3 * t) ∧
      trial rnd N s.grid word (s.draws + 3 * t) = some (some g') ∧
      idx? DIRECTIONS (floorMul (rnd (s.draws + 3 * t)) 8) = some d ∧
      ReadsAt N g' word (floorMul (rnd (s.draws + 3 * t + 1)) N)
        (floorMul (rnd (s.draws + 3 * t + 2)) N) d ∧
      (∀ r c, (∀ j : Nat, j < word.length →
          ¬ (r = floorMul (rnd (s.draws + 3 * t + 1)) N + (j : Int) * d.1 ∧
             c = floorMul (rnd (s.draws + 3 * t + 2)) N + (j : Int) * d.2)) →
        readCell g' r c = readCell s.grid r c) ∧
      placeWord rnd N s word =
        some ⟨g', s.placedWords ++ [word], s.draws + 3 * (t + 1)⟩) ∨
    ((∀ j, j < 150 → ¬ LegalTrial rnd N s.grid word (s.draws + 3 * j) ∧
        trial rnd N s.grid word (s.draws + 3 * j) = some none) ∧
      placeWord rnd N s word = some ⟨s.grid, s.placedWords, s.draws + 3 * 150⟩) := by
  rcases placeLoop_cases hv hN hg word 150 s.draws with
    ⟨t, g', ht, hrej, hleg, htr, hloop⟩ | ⟨hrej, hloop⟩
  · obtain ⟨d, hd, _, hreads, hoff, _⟩ := trial_commit_grid hg htr
    refine Or.inl ⟨t, g', d, ht, hrej, hleg, htr, hd, hreads, hoff, ?_⟩
    unfold placeWord
    simp only [hloop, if_true]
  · refine Or.inr ⟨hrej, ?_⟩
    unfold placeWord
    simp only [hloop, Bool.false_eq_true, if_false]

theorem placeWord_trials_witness :
    (∃ t g' d, t < 150 ∧
      (∀ j, j < t →
        ¬ LegalTrial (fun _ => 0) 3 (emptyGrid 3) CAT (0 + 3 * j) ∧
        trial (fun _ => 0) 3 (emptyGrid 3) CAT (0 + 3 * j) = some none) ∧
      LegalTrial (fun _ => 0) 3 (emptyGrid 3) CAT (0 + 3 * t) ∧
      trial (fun _ => 0) 3 (emptyGrid 3) CAT (0 + 3 * t) = some (some g') ∧
      idx? DIRECTIONS (floorMul ((fun _ => 0 : Rand) (0 + 3 * t)) 8) = some d ∧
      ReadsAt 3 g' CAT (floorMul ((fun _ => 0 : Rand) (0 + 3 * t + 1)) 3)
        (floorMul ((fun _ => 0 : Rand) (0 + 3 * t + 2)) 3) d ∧
      (∀ r c, (∀ j : Nat, j < CAT.length →
          ¬ (r = floorMul ((fun _ => 0 : Rand) (0 + 3 * t + 1)) 3 + (j : Int) * d.1 ∧
             c = floorMul ((fun _ => 0 : Rand) (0 + 3 * t + 2)) 3 + (j : Int) * d.2)) →
        readCell g' r c = readCell (emptyGrid 3) r c) ∧
      placeWord (fun _ => 0) 3 ⟨emptyGrid 3, [], 0⟩ CAT =
        some ⟨g', [] ++ [CAT], 0 + 3 * (t + 1)⟩) ∨
    ((∀ j, j < 150 →
        ¬ LegalTrial (fun _ => 0) 3 (emptyGrid 3) CAT (0 + 3 * j) ∧
        trial (fun _ => 0) 3 (emptyGrid 3) CAT (0 + 3 * j) = some none) ∧
      placeWord (fun _ => 0) 3 ⟨emptyGrid 3, [], 0⟩ CAT =
        some ⟨emptyGrid 3, [], 0 + 3 * 150⟩) :=
  placeWord_trials (fun _ => 0) 3 ⟨emptyGrid 3, [], 0⟩ CAT validRand_zero (by decide)
    (square_emptyGrid 3)

/-- Claim C10: the words are attempted in stable descending-length order: the
processing order is a permutation of the input list, lengths do not increase
along it, and for every length the words of that length stand in the same
order as in the input.  The sort is applied to a copy: with the arrays in
memory and the input list an array of that memory, the array `wordsToPlace`
holds the processing order afterwards, while the input array, and every
other array that was in memory, holds what it held before. -/
theorem wordsToPlace_stable_sort (words : List Word) :
    List.Perm (wordsToPlace words) words ∧
      List.Sorted (fun a b : Word => b.length ≤ a.length) (wordsToPlace words) ∧
      (∀ n, (wordsToPlace words).filter (fun w => decide (w.length = n)) =
        words.filter (fun w => decide (w.length = n))) ∧
      ∀ (σ : Store Word) (ref : Nat), ref < σ.length → deref σ ref = words →
        deref (sortedCopy σ ref).1 (sortedCopy σ ref).2 = wordsToPlace words ∧
        deref (sortedCopy σ ref).1 ref = words ∧
        ∀ r, r < σ.length → deref (sortedCopy σ ref).1 r = deref σ r := by
  refine ⟨List.perm_insertionSort lengthDesc words, sorted_wordsToPlace words,
    fun n => filter_wordsToPlace n words, fun σ ref href hwords => ?_⟩
  obtain ⟨h1, h2⟩ := sortedCopy_spec σ ref
  exact ⟨by rw [h1, hwords], by rw [h2 ref href, hwords], h2⟩

theorem wordsToPlace_stable_sort_witness :
    deref (sortedCopy [[[65], DOG, [66], CAT]] 0).1 (sortedCopy [[[65], DOG, [66], CAT]] 0).2
        = wordsToPlace [[65], DOG, [66], CAT] ∧
      deref (sortedCopy [[[65], DOG, [66], CAT]] 0).1 0 = [[65], DOG, [66], CAT] ∧
      ∀ r, r < List.length ([[[65], DOG, [66], CAT]] : Store Word) →
        deref (sortedCopy [[[65], DOG, [66], CAT]] 0).1 r = deref [[[65], DOG, [66], CAT]] r :=
  (wordsToPlace_stable_sort [[65], DOG, [66], CAT]).2.2.2 [[[65], DOG, [66], CAT]] 0
    (by decide) rfl

end WordSearch
